import Mathlib

/-!
Verification development for the wayvid documentation translation scripts
(docs/auto_translate.py, docs/translate_po.py, docs/populate_translations.py).

Strings are modelled as `List Char`.  The regex operations of the scripts are
all either literal substring replacement (the patterns are built with
`re.escape`, so they match literally) or the fixed pattern
msgid "([^"]+)"\nmsgstr "" used by `extract_untranslated_messages`, which is
modelled faithfully including the non-overlapping left-to-right scan of
`re.finditer`.
-/

namespace Wayvid

/-! ## Basic characters and Python string primitives -/

def qc : Char := '"'

def nlc : Char := '\n'

def tbc : Char := '\t'

def bsc : Char := '\\'

/-- Fuel-driven body of Python str.replace; the fuel is always at least the
length of the string, so the fuel-exhausted arm is never taken. -/
def replaceAllF : Nat → List Char → List Char → List Char → List Char
  | _, s, [], _ => s
  | _, [], _, _ => []
  | 0, s, _, _ => s
  | fuel + 1, c :: rest, pat, repl =>
    if pat.isPrefixOf (c :: rest) then
      repl ++ replaceAllF fuel ((c :: rest).drop pat.length) pat repl
    else
      c :: replaceAllF fuel rest pat repl

/-- Python str.replace(pat, repl): replace all occurrences, scanning left to
right, non-overlapping.  (For an empty pattern the scripts never call this;
we return the string unchanged in that case.) -/
def replaceAll (s pat repl : List Char) : List Char :=
  replaceAllF s.length s pat repl

/-- Python str.replace(pat, repl, 1): replace the first occurrence only. -/
def replaceFirst (s pat repl : List Char) : List Char :=
  match s with
  | [] => []
  | c :: rest =>
    if pat.isPrefixOf (c :: rest) then repl ++ (c :: rest).drop pat.length
    else c :: replaceFirst rest pat repl

/-- Interleave a separator between the parts:
interc sep [p1, p2, ..., pn] = p1 ++ sep ++ p2 ++ sep ++ ... ++ pn. -/
def interc {α : Type} (sep : List α) : List (List α) → List α
  | [] => []
  | [p] => p
  | p :: q :: ps => p ++ sep ++ interc sep (q :: ps)

/-! ## The PO entry pattern scaffolding

`mPre` is the text msgid "  (seven characters), `kw` is msgstr followed by a
space, `eSuf` is the text "␊msgstr "" that closes an untranslated entry
(eleven characters) and `mSuf2` the text "␊msgstr " that begins a translated
entry tail (ten characters). -/

def mPre : List Char := ['m', 's', 'g', 'i', 'd', ' ', qc]

def kw : List Char := ['m', 's', 'g', 's', 't', 'r', ' ']

def eSuf : List Char := qc :: nlc :: (kw ++ [qc, qc])

def mSuf2 : List Char := qc :: nlc :: (kw ++ [qc])

/-- The line msgid "K". -/
def msgidLine (K : List Char) : List Char := mPre ++ K ++ [qc]

/-- The line msgstr "V". -/
def msgstrOf (V : List Char) : List Char := kw ++ [qc] ++ V ++ [qc]

/-- The two-line pattern msgid "K"␊msgstr "" used by all three scripts. -/
def poPat (K : List Char) : List Char := msgidLine K ++ [nlc] ++ msgstrOf []

/-- The two-line replacement msgid "K"␊msgstr "V". -/
def poRep (K V : List Char) : List Char := msgidLine K ++ [nlc] ++ msgstrOf V

/-! ## Escaping and unescaping, as in auto_translate.py -/

def bn : List Char := [bsc, 'n']

def bt : List Char := [bsc, 't']

def bq : List Char := [bsc, qc]

/-- original.replace('\n', '\\n').replace('\t', '\\t').replace('"', '\\"')
from translate_po_file in auto_translate.py. -/
def escapePo (s : List Char) : List Char :=
  replaceAll (replaceAll (replaceAll s [nlc] bn) [tbc] bt) [qc] bq

/-- translation.replace('"', '\\"').replace('\n', '\\n').replace('\t', '\\t')
from translate_po_file in auto_translate.py. -/
def escapeTrans (s : List Char) : List Char :=
  replaceAll (replaceAll (replaceAll s [qc] bq) [nlc] bn) [tbc] bt

/-- msgid.replace('\\n', '\n').replace('\\t', '\t').replace('\\"', '"')
from extract_untranslated_messages in auto_translate.py. -/
def unescapePo (s : List Char) : List Char :=
  replaceAll (replaceAll (replaceAll s bn [nlc]) bt [tbc]) bq [qc]

/-! ## extract_untranslated_messages -/

def pivL : List Char := ("Project-Id-Version").toList

/-- One attempted regex match of msgid "([^"]+)"␊msgstr "" at the head of
`s`: the group is the maximal run of non-quote characters after msgid ",
and it must be non-empty and be followed by "␊msgstr "". -/
def poMatch (s : List Char) : Option (List Char) :=
  if mPre.isPrefixOf s then
    let t := s.drop 7
    let g := t.takeWhile (fun c => ¬ (c = qc))
    let r := t.dropWhile (fun c => ¬ (c = qc))
    if g ≠ [] ∧ eSuf.isPrefixOf r then some g else none
  else none

/-- Fuel-driven body of the re.finditer scan; the fuel is always at least
the length of the remaining input. -/
def scanPoF : Nat → List Char → Nat → List (List Char × Nat)
  | _, [], _ => []
  | 0, _, _ => []
  | fuel + 1, c :: rest, pos =>
    match poMatch (c :: rest) with
    | some g =>
      let L := 18 + g.length
      let tail := scanPoF fuel ((c :: rest).drop L) (pos + L)
      if g = [] ∨ pivL.isPrefixOf g then tail else (unescapePo g, pos) :: tail
    | none => scanPoF fuel rest (pos + 1)

/-- The scan of re.finditer: try to match at each position, and after a
match continue at the end of the matched span (length 18 + group length).
Matched groups that are empty or start with Project-Id-Version are skipped;
emitted msgids are unescaped, paired with the match position. -/
def scanPo (s : List Char) (pos : Nat) : List (List Char × Nat) :=
  scanPoF s.length s pos

/-- extract_untranslated_messages from auto_translate.py. -/
def extract_untranslated_messages (content : List Char) : List (List Char × Nat) :=
  scanPo content 0

/-! ## translate_text (auto_translate.py), with the HTTP call abstracted -/

/-- Outcome of the HTTP request inside the try block: either the parsed
response items (none standing for an item without a non-empty translations
list) or an exception. -/
inductive ApiOutcome where
  | success : List (Option (List Char)) → ApiOutcome
  | failure : List Char → ApiOutcome

/-- translate_text: raises ValueError (modelled as Except.error) when the
API key is unset or empty, returns [] for an empty input without touching
the request outcome, returns [''] * len(texts) when the request raises, and
otherwise extracts the first translation text of each item ('' when absent). -/
def translate_text (apiKey : Option (List Char)) (texts : List (List Char))
    (outcome : ApiOutcome) : Except Unit (List (List Char)) :=
  if apiKey = none ∨ apiKey = some [] then Except.error ()
  else if texts = [] then Except.ok []
  else
    match outcome with
    | ApiOutcome.failure _ => Except.ok (List.replicate texts.length [])
    | ApiOutcome.success items => Except.ok (items.map (fun it => it.getD []))

/-! ## translate_po_file (auto_translate.py) -/

/-- Fuel-driven body of Python range(start, stop, step). -/
def pyRangeF : Nat → Nat → Nat → Nat → List Nat
  | 0, _, _, _ => []
  | fuel + 1, start, stop, step =>
    if 0 < step ∧ start < stop then
      start :: pyRangeF fuel (start + step) stop step
    else []

/-- Python range(start, stop, step) for a positive step. -/
def pyRange (start stop step : Nat) : List Nat :=
  pyRangeF (stop - start) start stop step

/-- Events of the batch loop, used to express its temporal behaviour:
one call event per translate_text call, one sleep event per time.sleep. -/
inductive PoEvent (D : Type) where
  | call : List (List Char) → PoEvent D
  | sleep : D → PoEvent D

/-- The body of the inner replacement loop of translate_po_file for a single
(message, translation) pair: skip empty translations, otherwise re-escape,
and replace the first occurrence of the untranslated entry if present. -/
def processMsg (st : List Char × Nat) (mt : (List Char × Nat) × List Char) :
    List Char × Nat :=
  let original := mt.1.1
  let translation := mt.2
  if translation = [] then st
  else
    let eo := escapePo original
    let et := escapeTrans translation
    let oldPat := poPat eo
    let newPat := poRep eo et
    if oldPat <:+: st.1 then (replaceFirst st.1 oldPat newPat, st.2 + 1)
    else st

/-- The batch loop of translate_po_file over the list of start indices
produced by range(0, total, batch_size).  Returns the final
(content, translated_count), the list of argument lists passed to
translate_text, and the trace of call/sleep events. -/
def runBatches {D : Type} (api : List (List Char) → List (List Char))
    (unt : List (List Char × Nat)) (bs : Nat) (δ : D) (total : Nat) :
    List Nat → (List Char × Nat) →
      ((List Char × Nat) × List (List (List Char)) × List (PoEvent D))
  | [], st => (st, [], [])
  | i :: is, st =>
    let batch := (unt.drop i).take bs
    let texts := batch.map Prod.fst
    let trs := api texts
    let st2 := (batch.zip trs).foldl processMsg st
    let rec3 := runBatches api unt bs δ total is st2
    (rec3.1, texts :: rec3.2.1,
      PoEvent.call texts ::
        (if i + bs < total then PoEvent.sleep δ :: rec3.2.2 else rec3.2.2))

/-- Result of translate_po_file: final content, translated_count, the
translate_text call arguments in order, and the event trace. -/
structure PoRun (D : Type) where
  content : List Char
  translatedCount : Nat
  calls : List (List (List Char))
  events : List (PoEvent D)

/-- translate_po_file from auto_translate.py with the translation API
abstracted as a function from the batch texts to the returned translations. -/
def translate_po_file {D : Type} (api : List (List Char) → List (List Char))
    (content : List Char) (bs : Nat) (δ : D) : PoRun D :=
  let unt := extract_untranslated_messages content
  if unt = [] then ⟨content, 0, [], []⟩
  else
    let r := runBatches api unt bs δ unt.length (pyRange 0 unt.length bs)
      (content, 0)
    ⟨r.1.1, r.1.2, r.2.1, r.2.2⟩

/-! ## The glossary scripts -/

/-- The TRANSLATIONS dictionary of translate_po.py, in insertion order. -/
def TRANSLATIONS : List (List Char × List Char) :=
  [
   (("Summary").toList, ("目录").toList),
   (("Introduction").toList, ("简介").toList),
   (("User Guide").toList, ("用户指南").toList),
   (("Quick Start").toList, ("快速开始").toList),
   (("Installation").toList, ("安装").toList),
   (("Configuration").toList, ("配置").toList),
   (("Video Sources").toList, ("视频源").toList),
   (("Multi-Monitor Setup").toList, ("多显示器设置").toList),
   (("Features").toList, ("功能特性").toList),
   (("HDR Support").toList, ("HDR 支持").toList),
   (("Steam Workshop").toList, ("Steam 创意工坊").toList),
   (("Niri Integration").toList, ("Niri 集成").toList),
   (("IPC Control").toList, ("IPC 控制").toList),
   (("Developer Guide").toList, ("开发者指南").toList),
   (("Building from Source").toList, ("从源码构建").toList),
   (("Development Workflow").toList, ("开发工作流").toList),
   (("Architecture").toList, ("系统架构").toList),
   (("Contributing").toList, ("贡献指南").toList),
   (("Reference").toList, ("参考文档").toList),
   (("Configuration Reference").toList, ("配置参考").toList),
   (("CLI Commands").toList, ("CLI 命令").toList),
   (("IPC Protocol").toList, ("IPC 协议").toList),
   (("WE Format").toList, ("WE 格式").toList),
   (("wayvid").toList, ("wayvid").toList),
   (("Wayland Dynamic Video Wallpaper Daemon").toList, ("Wayland 动态视频壁纸守护进程").toList),
   (("Core Features").toList, ("核心特性").toList),
   (("Prerequisites").toList, ("前置要求").toList),
   (("Supported Compositors").toList, ("支持的合成器").toList),
   (("System Requirements").toList, ("系统要求").toList),
   (("Getting Help").toList, ("获取帮助").toList),
   (("License").toList, ("许可证").toList),
   (("Documentation").toList, ("文档").toList),
   (("Overview").toList, ("概览").toList),
   (("Example").toList, ("示例").toList),
   (("Usage").toList, ("使用方法").toList),
   (("Options").toList, ("选项").toList),
   (("Description").toList, ("描述").toList),
   (("Note").toList, ("注意").toList),
   (("Warning").toList, ("警告").toList),
   (("Tip").toList, ("提示").toList),
   (("See also").toList, ("另见").toList),
   (("Table of Contents").toList, ("目录").toList),
   (("Chapter 1").toList, ("第一章").toList),
   (("Video wallpapers").toList, ("视频壁纸").toList),
   (("Static images").toList, ("静态图片").toList),
   (("Basic animations").toList, ("基础动画").toList),
   (("Interactive wallpapers").toList, ("交互式壁纸").toList),
   (("Audio").toList, ("音频").toList),
   (("Web-based wallpapers").toList, ("基于网页的壁纸").toList),
   (("Hardware decode").toList, ("硬件解码").toList),
   (("Multi-output").toList, ("多输出").toList),
   (("Layer shell").toList, ("层级外壳").toList),
   (("Hot-plugging").toList, ("热插拔").toList),
   (("Power management").toList, ("电源管理").toList),
   (("Playback settings").toList, ("播放设置").toList),
   (("Display configuration").toList, ("显示配置").toList),
   (("HDR settings").toList, ("HDR 设置").toList),
   (("Performance").toList, ("性能").toList),
   (("Logging").toList, ("日志记录").toList),
   (("See").toList, ("详见").toList),
   (("For more details").toList, ("详细信息请参阅").toList),
   (("Learn more").toList, ("了解更多").toList),
   (("Get started").toList, ("开始使用").toList),
   (("Download").toList, ("下载").toList),
   (("Install").toList, ("安装").toList),
   (("Build").toList, ("构建").toList),
   (("Run").toList, ("运行").toList),
   (("Configure").toList, ("配置").toList),
   (("Enable").toList, ("启用").toList),
   (("Disable").toList, ("禁用").toList),
   (("Check").toList, ("检查").toList),
   (("limited").toList, ("受限").toList),
   (("enabled").toList, ("已启用").toList),
   (("disabled").toList, ("已禁用").toList),
   (("muted").toList, ("静音").toList),
   (("paused").toList, ("已暂停").toList),
   (("Optional").toList, ("可选").toList),
   (("Required").toList, ("必需").toList),
   (("Video source").toList, ("视频源").toList),
   (("file").toList, ("文件").toList),
   (("directory").toList, ("目录").toList),
   (("workshop").toList, ("创意工坊").toList),
   (("path").toList, ("路径").toList),
   (("URL format").toList, ("URL 格式").toList),
   (("Expected output").toList, ("预期输出").toList)]

/-- The translations dictionary of populate_translations.py, in insertion order. -/
def translationsPop : List (List Char × List Char) :=
  [
   (("Summary# Summary").toList, ("目录").toList),
   (("Introduction\\- Chapter 1").toList, ("简介 - 第一章").toList),
   (("User Guide").toList, ("用户指南").toList),
   (("Quick Start").toList, ("快速开始").toList),
   (("Installation").toList, ("安装").toList),
   (("Configuration").toList, ("配置").toList),
   (("Video Sources").toList, ("视频源").toList),
   (("Multi-Monitor Setup").toList, ("多显示器设置").toList),
   (("Features").toList, ("功能特性").toList),
   (("HDR Support").toList, ("HDR 支持").toList),
   (("Steam Workshop Integration").toList, ("Steam 创意工坊集成").toList),
   (("Niri Integration").toList, ("Niri 集成").toList),
   (("IPC Control").toList, ("IPC 控制").toList),
   (("Developer Guide").toList, ("开发者指南").toList),
   (("Building from Source").toList, ("从源码构建").toList),
   (("Development Workflow").toList, ("开发流程").toList),
   (("Architecture").toList, ("系统架构").toList),
   (("Contributing").toList, ("贡献指南").toList),
   (("Reference").toList, ("参考文档").toList),
   (("Configuration Reference").toList, ("配置参考").toList),
   (("CLI Reference").toList, ("命令行参考").toList),
   (("IPC Protocol").toList, ("IPC 协议").toList),
   (("Wallpaper Engine Format").toList, ("Wallpaper Engine 格式规范").toList),
   (("wayvid").toList, ("wayvid").toList),
   (("Wayland").toList, ("Wayland").toList),
   (("video wallpaper").toList, ("动态壁纸").toList),
   (("compositor").toList, ("合成器").toList),
   (("output").toList, ("输出").toList),
   (("monitor").toList, ("显示器").toList),
   (("display").toList, ("显示器").toList),
   (("hardware decode").toList, ("硬件解码").toList),
   (("tone mapping").toList, ("色调映射").toList)]

/-- One glossary substitution step: the regex substitution
re.subn(msgid "re.escape(K)"␊msgstr "", msgid "K"␊msgstr "V", content)
of translate_po.py (and the re.sub of populate_translations.py), which for
these escaped patterns is a literal replace-all. -/
def substEntry (content : List Char) (e : List Char × List Char) : List Char :=
  replaceAll content (poPat e.1) (poRep e.1 e.2)

/-- The loop over the whole glossary dictionary, in insertion order. -/
def applyGlossary (g : List (List Char × List Char)) (content : List Char) :
    List Char :=
  g.foldl substEntry content

/-- A small PO content with three untranslated entries, used as a concrete
input by the witnesses. -/
def sampleContent : List Char := poPat ['a'] ++ poPat ['b'] ++ poPat ['c']

/-- The six characters msgid␣ (used to state a sanity condition on glossary
values). -/
def msgidSp : List Char := ['m', 's', 'g', 'i', 'd', ' ']

/-- Conditions satisfied by every glossary entry of the two scripts: the
key is non-empty and contains no double quote and no newline; the value is
non-empty, contains no double quote and does not end with msgid␣. -/
def goodEntry (e : List Char × List Char) : Prop :=
  e.1 ≠ [] ∧ qc ∉ e.1 ∧ nlc ∉ e.1 ∧ e.2 ≠ [] ∧ qc ∉ e.2 ∧ ¬ msgidSp <:+ e.2

instance (e : List Char × List Char) : Decidable (goodEntry e) := by
  unfold goodEntry
  infer_instance

/-- One frame step of the glossary substitution: the input splits into
parts separated by the entry's untranslated two-line pattern, and the
output is the same parts separated by the translated replacement — so only
pattern occurrences change and every other character is untouched. -/
def SubstStep (K V s s2 : List Char) : Prop :=
  ∃ parts : List (List Char), s = interc (poPat K) parts ∧
    s2 = interc (poRep K V) parts ∧ ∀ p ∈ parts, ¬ poPat K <:+: p

/-- The written output is related to the original content by one SubstStep
per glossary entry, in dictionary order. -/
def Frames : List (List Char × List Char) → List Char → List Char → Prop
  | [], s, s2 => s2 = s
  | e :: es, s, s2 => ∃ s1, SubstStep e.1 e.2 s s1 ∧ Frames es s1 s2

/-! ## Generic list toolkit -/

theorem poPat_shape (K : List Char) : poPat K = mPre ++ K ++ eSuf := by
  simp [poPat, msgidLine, msgstrOf, eSuf, List.append_assoc]

theorem poRep_shape (K V : List Char) :
    poRep K V = mPre ++ K ++ mSuf2 ++ V ++ [qc] := by
  simp [poRep, msgidLine, msgstrOf, mSuf2, List.append_assoc]

theorem getp_drop {α : Type} (l : List α) (i j : Nat) :
    (l.drop i)[j]? = l[i + j]? := by
  induction i generalizing l with
  | zero => simp
  | succ n ih =>
    cases l with
    | nil => simp
    | cons c t => simpa [Nat.succ_add] using ih t

theorem pref_getp {α : Type} {xs ys : List α} (h : xs <+: ys) {i : Nat} {a : α}
    (ha : xs[i]? = some a) : ys[i]? = some a := by
  obtain ⟨t, rfl⟩ := h
  have hi : i < xs.length := (List.getElem?_eq_some_iff.mp ha).1
  rw [List.getElem?_append_left hi]
  exact ha

theorem getp_app2 {α : Type} (u v : List α) (j : Nat) :
    (u ++ v)[u.length + j]? = v[j]? := by
  rw [List.getElem?_append_right (Nat.le_add_right _ _)]
  simp

/-- Transfer one character through a prefix hypothesis into a dropped list. -/
theorem prefix_drop_transfer {α : Type} {P S b : List α} {k i j : Nat} {c : α}
    (h : P <+: S.drop k ++ b) (hP : P[i]? = some c) (hij : k + i = j)
    (hjS : j < S.length) : S[j]? = some c := by
  have h1 := pref_getp h hP
  rw [List.getElem?_append_left (by simp [List.length_drop]; omega)] at h1
  rw [getp_drop] at h1
  rw [← hij]
  exact h1

/-! ## Step lemmas for the fuel-driven primitives -/

theorem replaceAllF_step (f : Nat) (c : Char) (rest pat repl : List Char)
    (h : pat ≠ []) :
    replaceAllF (f + 1) (c :: rest) pat repl =
      if pat.isPrefixOf (c :: rest) then
        repl ++ replaceAllF f ((c :: rest).drop pat.length) pat repl
      else
        c :: replaceAllF f rest pat repl := by
  match pat, h with
  | pc :: pr, _ => rfl

theorem replaceAllF_congr : ∀ (f1 f2 : Nat) (s pat repl : List Char),
    s.length ≤ f1 → s.length ≤ f2 →
    replaceAllF f1 s pat repl = replaceAllF f2 s pat repl := by
  intro f1
  induction f1 with
  | zero =>
    intro f2 s pat repl h1 h2
    have hs : s = [] := List.eq_nil_of_length_eq_zero (by omega)
    subst hs
    cases pat <;> cases f2 <;> rfl
  | succ f ih =>
    intro f2 s pat repl h1 h2
    cases pat with
    | nil => cases s <;> cases f2 <;> rfl
    | cons pc pr =>
      cases s with
      | nil => cases f2 <;> rfl
      | cons c rest =>
        match f2, h2 with
        | f2 + 1, h2 =>
        rw [replaceAllF_step f c rest (pc :: pr) repl (by simp),
          replaceAllF_step f2 c rest (pc :: pr) repl (by simp)]
        by_cases hp : (pc :: pr).isPrefixOf (c :: rest)
        · rw [if_pos hp, if_pos hp]
          congr 1
          apply ih
          · simp only [List.length_drop, List.length_cons] at *
            omega
          · simp only [List.length_drop, List.length_cons] at *
            omega
        · rw [if_neg hp, if_neg hp]
          congr 1
          apply ih
          · simp at h1
            omega
          · simp at h2
            omega

theorem replaceAll_nil (pat repl : List Char) : replaceAll [] pat repl = [] := by
  cases pat <;> rfl

theorem replaceAll_cons_pos {pat : List Char} (hne : pat ≠ []) {c : Char}
    {rest : List Char} (hp : pat.isPrefixOf (c :: rest) = true)
    (repl : List Char) :
    replaceAll (c :: rest) pat repl =
      repl ++ replaceAll ((c :: rest).drop pat.length) pat repl := by
  unfold replaceAll
  rw [show (c :: rest).length = rest.length + 1 from rfl,
    replaceAllF_step _ _ _ _ _ hne, if_pos hp]
  congr 1
  apply replaceAllF_congr
  · have : 0 < pat.length := List.length_pos.mpr hne
    simp only [List.length_drop, List.length_cons]
    omega
  · exact le_rfl

theorem replaceAll_cons_neg {pat : List Char} {c : Char} {rest : List Char}
    (hp : ¬ pat.isPrefixOf (c :: rest) = true) (repl : List Char) :
    replaceAll (c :: rest) pat repl = c :: replaceAll rest pat repl := by
  have hne : pat ≠ [] := by
    rintro rfl
    exact hp rfl
  unfold replaceAll
  rw [show (c :: rest).length = rest.length + 1 from rfl,
    replaceAllF_step _ _ _ _ _ hne, if_neg hp]

theorem pyRangeF_congr : ∀ (f1 f2 start stop step : Nat),
    stop - start ≤ f1 → stop - start ≤ f2 →
    pyRangeF f1 start stop step = pyRangeF f2 start stop step := by
  intro f1
  induction f1 with
  | zero =>
    intro f2 start stop step h1 h2
    cases f2 with
    | zero => rfl
    | succ f2 =>
      show [] = if 0 < step ∧ start < stop then _ else []
      rw [if_neg]
      rintro ⟨-, hlt⟩
      omega
  | succ f ih =>
    intro f2 start stop step h1 h2
    cases f2 with
    | zero =>
      show (if 0 < step ∧ start < stop then _ else []) = []
      rw [if_neg]
      rintro ⟨-, hlt⟩
      omega
    | succ f2 =>
      show (if 0 < step ∧ start < stop then _ else []) =
        (if 0 < step ∧ start < stop then _ else [])
      by_cases hc : 0 < step ∧ start < stop
      · rw [if_pos hc, if_pos hc]
        congr 1
        exact ih f2 (start + step) stop step (by omega) (by omega)
      · rw [if_neg hc, if_neg hc]

theorem scanPoF_congr : ∀ (f1 f2 : Nat) (s : List Char) (pos : Nat),
    s.length ≤ f1 → s.length ≤ f2 →
    scanPoF f1 s pos = scanPoF f2 s pos := by
  intro f1
  induction f1 with
  | zero =>
    intro f2 s pos h1 h2
    have hs : s = [] := List.eq_nil_of_length_eq_zero (by omega)
    subst hs
    cases f2 <;> rfl
  | succ f ih =>
    intro f2 s pos h1 h2
    cases s with
    | nil => cases f2 <;> rfl
    | cons c rest =>
      match f2, h2 with
      | f2 + 1, h2 =>
      show (match poMatch (c :: rest) with
        | some g =>
          if g = [] ∨ pivL.isPrefixOf g then
            scanPoF f ((c :: rest).drop (18 + g.length)) (pos + (18 + g.length))
          else (unescapePo g, pos) ::
            scanPoF f ((c :: rest).drop (18 + g.length)) (pos + (18 + g.length))
        | none => scanPoF f rest (pos + 1)) =
        (match poMatch (c :: rest) with
        | some g =>
          if g = [] ∨ pivL.isPrefixOf g then
            scanPoF f2 ((c :: rest).drop (18 + g.length)) (pos + (18 + g.length))
          else (unescapePo g, pos) ::
            scanPoF f2 ((c :: rest).drop (18 + g.length)) (pos + (18 + g.length))
        | none => scanPoF f2 rest (pos + 1))
      cases hm : poMatch (c :: rest) with
      | some g =>
        simp only []
        have hrec : scanPoF f ((c :: rest).drop (18 + g.length))
            (pos + (18 + g.length)) =
            scanPoF f2 ((c :: rest).drop (18 + g.length))
              (pos + (18 + g.length)) := by
          apply ih
          · simp only [List.length_drop, List.length_cons] at *
            omega
          · simp only [List.length_drop, List.length_cons] at *
            omega
        rw [hrec]
      | none =>
        simp only []
        exact ih f2 rest (pos + 1) (by simp at h1 ⊢; omega)
          (by simp at h2 ⊢; omega)

theorem scanPo_cons_some {c : Char} {rest g : List Char}
    (hm : poMatch (c :: rest) = some g) (pos : Nat) :
    scanPo (c :: rest) pos =
      if g = [] ∨ pivL.isPrefixOf g then
        scanPo ((c :: rest).drop (18 + g.length)) (pos + (18 + g.length))
      else (unescapePo g, pos) ::
        scanPo ((c :: rest).drop (18 + g.length)) (pos + (18 + g.length)) := by
  have hrec : scanPoF rest.length ((c :: rest).drop (18 + g.length))
      (pos + (18 + g.length)) =
      scanPo ((c :: rest).drop (18 + g.length)) (pos + (18 + g.length)) := by
    apply scanPoF_congr
    · simp only [List.length_drop, List.length_cons]
      omega
    · exact le_rfl
  have h0 : scanPo (c :: rest) pos = scanPoF (rest.length + 1) (c :: rest) pos :=
    rfl
  rw [h0]
  simp only [scanPoF]
  rw [hm]
  show (if g = [] ∨ pivL.isPrefixOf g then
      scanPoF rest.length ((c :: rest).drop (18 + g.length))
        (pos + (18 + g.length))
    else (unescapePo g, pos) ::
      scanPoF rest.length ((c :: rest).drop (18 + g.length))
        (pos + (18 + g.length))) = _
  rw [hrec]

theorem scanPo_cons_none {c : Char} {rest : List Char}
    (hm : poMatch (c :: rest) = none) (pos : Nat) :
    scanPo (c :: rest) pos = scanPo rest (pos + 1) := by
  have h0 : scanPo (c :: rest) pos = scanPoF (rest.length + 1) (c :: rest) pos :=
    rfl
  rw [h0]
  simp only [scanPoF]
  rw [hm]
  rfl

/-! ## Accessors for the pattern and replacement shapes -/

/-! ## Accessors for the pattern and replacement shapes -/

theorem patB_pre (K : List Char) {j : Nat} (hj : j < 7) :
    (mPre ++ K ++ eSuf)[j]? = mPre[j]? := by
  rw [List.append_assoc, List.getElem?_append_left (by simp [mPre]; omega)]

theorem patB_K (K : List Char) {j : Nat} (hj : j < K.length) :
    (mPre ++ K ++ eSuf)[7 + j]? = K[j]? := by
  rw [List.append_assoc, show (7 : Nat) + j = mPre.length + j from rfl,
    getp_app2, List.getElem?_append_left hj]

theorem patB_suf (K : List Char) (j : Nat) :
    (mPre ++ K ++ eSuf)[7 + K.length + j]? = eSuf[j]? := by
  rw [List.append_assoc, show 7 + K.length + j = mPre.length + (K.length + j) by
    simp [mPre]; omega, getp_app2, getp_app2]

theorem repB_pre (K V : List Char) {j : Nat} (hj : j < 7) :
    (mPre ++ K ++ mSuf2 ++ V ++ [qc])[j]? = mPre[j]? := by
  rw [List.append_assoc, List.append_assoc, List.append_assoc,
    List.getElem?_append_left (by simp [mPre]; omega)]

theorem repB_K (K V : List Char) {j : Nat} (hj : j < K.length) :
    (mPre ++ K ++ mSuf2 ++ V ++ [qc])[7 + j]? = K[j]? := by
  rw [List.append_assoc, List.append_assoc, List.append_assoc,
    show (7 : Nat) + j = mPre.length + j from rfl, getp_app2,
    List.getElem?_append_left hj]

theorem repB_suf2 (K V : List Char) {j : Nat} (hj : j < 10) :
    (mPre ++ K ++ mSuf2 ++ V ++ [qc])[7 + K.length + j]? = mSuf2[j]? := by
  rw [List.append_assoc, List.append_assoc, List.append_assoc,
    show 7 + K.length + j = mPre.length + (K.length + j) by simp [mPre]; omega,
    getp_app2, getp_app2, List.getElem?_append_left (by simp [mSuf2, kw]; omega)]

theorem repB_V (K V : List Char) {j : Nat} (hj : j < V.length) :
    (mPre ++ K ++ mSuf2 ++ V ++ [qc])[17 + K.length + j]? = V[j]? := by
  rw [List.append_assoc, List.append_assoc, List.append_assoc,
    show 17 + K.length + j = mPre.length + (K.length + (mSuf2.length + j)) by
      simp [mPre, mSuf2, kw]; omega,
    getp_app2, getp_app2, getp_app2, List.getElem?_append_left hj]

theorem repB_last (K V : List Char) :
    (mPre ++ K ++ mSuf2 ++ V ++ [qc])[17 + K.length + V.length]? = some qc := by
  rw [List.append_assoc, List.append_assoc, List.append_assoc,
    show 17 + K.length + V.length =
      mPre.length + (K.length + (mSuf2.length + (V.length + 0))) by
      simp [mPre, mSuf2, kw]; omega,
    getp_app2, getp_app2, getp_app2, getp_app2]
  rfl

theorem len_repB (K V : List Char) :
    (mPre ++ K ++ mSuf2 ++ V ++ [qc]).length = 18 + K.length + V.length := by
  simp [mPre, mSuf2, kw]
  omega

theorem len_patB (K : List Char) :
    (mPre ++ K ++ eSuf).length = 18 + K.length := by
  simp [mPre, eSuf, kw]
  omega

theorem poPat_ne_nil (K : List Char) : poPat K ≠ [] := by
  intro h
  have := congrArg List.length h
  rw [poPat_shape, len_patB] at this
  simp at this

theorem getp_exists {α : Type} (l : List α) {i : Nat} (h : i < l.length) :
    ∃ c, l[i]? = some c :=
  ⟨l.get ⟨i, h⟩, by
    rw [List.getElem?_eq_some_iff]
    exact ⟨h, (List.get_eq_getElem l ⟨i, h⟩).symm⟩⟩

/-- No second regex match can start strictly inside the span of a match of
msgid "([^"]+)"␊msgstr "": the pattern shape cannot overlap itself. -/
theorem selfov (g1 g2 : List Char) (hg1 : qc ∉ g1) (hg2 : qc ∉ g2)
    (r : List Char) (j : Nat) (hj1 : 1 ≤ j) (hj2 : j < 18 + g1.length) :
    ¬ (mPre ++ g2 ++ eSuf) <+: ((mPre ++ g1 ++ eSuf).drop j ++ r) := by
  intro h
  have hS := len_patB g1
  have hLlen := len_patB g2
  have tr : ∀ {i : Nat} {c : Char}, (mPre ++ g2 ++ eSuf)[i]? = some c →
      ∀ jj : Nat, j + i = jj → jj < 18 + g1.length →
      (mPre ++ g1 ++ eSuf)[jj]? = some c := by
    intro i c hP jj hij hlt
    exact prefix_drop_transfer h hP hij (by rw [hS]; omega)
  rcases Nat.lt_or_ge j 7 with h7 | h7
  · have hL0 : (mPre ++ g2 ++ eSuf)[0]? = some 'm' := by
      rw [patB_pre g2 (by omega)]
      decide
    have h1 := tr hL0 j (by omega) (by omega)
    rw [patB_pre g1 (by omega)] at h1
    have hval : ∀ i, i < 7 → 1 ≤ i → ¬ (mPre[i]? = some 'm') := by decide
    exact hval j (by omega) (by omega) h1
  · rcases Nat.lt_or_ge j (7 + g1.length) with hK | hK
    · rcases Nat.lt_or_ge (7 + g1.length - j) 6 with hc5 | hc6
      · obtain ⟨c, hc⟩ := getp_exists (mPre ++ g2 ++ eSuf)
          (i := 7 + g1.length - j) (by rw [hLlen]; omega)
        have h1 := tr hc (7 + g1.length + 0) (by omega) (by omega)
        rw [patB_suf g1 0] at h1
        have hcq : c = qc := by
          have he : eSuf[(0 : Nat)]? = some qc := by decide
          rw [he] at h1
          exact (Option.some.inj h1).symm
        subst hcq
        rw [patB_pre g2 (by omega)] at hc
        have hval : ∀ i, i < 6 → ¬ (mPre[i]? = some qc) := by decide
        exact hval _ (by omega) hc
      · rcases Nat.lt_or_ge (7 + g1.length - j) 7 with hc6e | hc7
        · rcases Nat.lt_or_ge g2.length 8 with hB7 | hB8
          · have hL : (mPre ++ g2 ++ eSuf)[7 + g2.length + 0]? = some qc := by
              rw [patB_suf g2 0]
              decide
            have h1 := tr hL (7 + g1.length + (1 + g2.length)) (by omega)
              (by omega)
            rw [patB_suf g1 (1 + g2.length)] at h1
            have hval : ∀ b, b < 8 → ¬ (eSuf[1 + b]? = some qc) := by decide
            exact hval g2.length (by omega) h1
          · rcases Nat.lt_or_ge g2.length 9 with hB8e | hB9
            · have hL : (mPre ++ g2 ++ eSuf)[7 + g2.length + 1]? = some nlc := by
                rw [patB_suf g2 1]
                decide
              have h1 := tr hL (7 + g1.length + 10) (by omega) (by omega)
              rw [patB_suf g1 10] at h1
              exact absurd h1 (by decide)
            · obtain ⟨c, hc⟩ := getp_exists g2 (i := 8) (by omega)
              have hL : (mPre ++ g2 ++ eSuf)[7 + 8]? = some c := by
                rw [show (7 + 8 : Nat) = 7 + 8 from rfl, patB_K g2 (by omega)]
                exact hc
              have h1 := tr hL (7 + g1.length + 9) (by omega) (by omega)
              rw [patB_suf g1 9] at h1
              have hq : c = qc := by
                have he : eSuf[(9 : Nat)]? = some qc := by decide
                rw [he] at h1
                exact (Option.some.inj h1).symm
              subst hq
              exact hg2 (List.getElem?_mem hc)
        · have hL6 : (mPre ++ g2 ++ eSuf)[6]? = some qc := by
            rw [patB_pre g2 (by omega)]
            decide
          have h1 := tr hL6 (7 + (j - 1)) (by omega) (by omega)
          rw [patB_K g1 (by omega)] at h1
          exact hg1 (List.getElem?_mem h1)
    · by_cases ht2 : j = 7 + g1.length + 2
      · have hL3 : (mPre ++ g2 ++ eSuf)[3]? = some 'i' := by
          rw [patB_pre g2 (by omega)]
          decide
        have h1 := tr hL3 (7 + g1.length + 5) (by omega) (by omega)
        rw [patB_suf g1 5] at h1
        exact absurd h1 (by decide)
      · have hL0 : (mPre ++ g2 ++ eSuf)[0]? = some 'm' := by
          rw [patB_pre g2 (by omega)]
          decide
        have h1 := tr hL0 (7 + g1.length + (j - 7 - g1.length)) (by omega)
          (by omega)
        rw [patB_suf g1 (j - 7 - g1.length)] at h1
        have hval : ∀ t, t < 11 → t ≠ 2 → ¬ (eSuf[t]? = some 'm') := by decide
        exact hval (j - 7 - g1.length) (by omega) (by omega) h1

/-! ## Characterisation of poMatch and the finditer scan -/

theorem prefix_eq_append {p s : List Char} (h : p <+: s) :
    s = p ++ s.drop p.length := by
  obtain ⟨t, rfl⟩ := h
  rw [List.drop_left]

theorem poMatch_some_iff {s g : List Char} :
    poMatch s = some g ↔
      g ≠ [] ∧ qc ∉ g ∧ ∃ r, s = mPre ++ g ++ eSuf ++ r := by
  constructor
  · intro h
    unfold poMatch at h
    by_cases hp : mPre.isPrefixOf s
    · rw [if_pos hp] at h
      simp only [] at h
      by_cases hc : (s.drop 7).takeWhile (fun c => ¬ (c = qc)) ≠ [] ∧
          eSuf.isPrefixOf ((s.drop 7).dropWhile (fun c => ¬ (c = qc)))
      · rw [if_pos hc] at h
        have hg : g = (s.drop 7).takeWhile (fun c => ¬ (c = qc)) :=
          (Option.some.inj h).symm
        subst hg
        refine ⟨hc.1, ?_, ?_⟩
        · intro hq
          have := List.mem_takeWhile_imp hq
          simp at this
        · refine ⟨((s.drop 7).dropWhile (fun c => ¬ (c = qc))).drop
            eSuf.length, ?_⟩
          have h1 : s = mPre ++ s.drop 7 :=
            (prefix_eq_append (List.isPrefixOf_iff_prefix.mp hp))
          have h2 : s.drop 7 =
              (s.drop 7).takeWhile (fun c => ¬ (c = qc)) ++
                (s.drop 7).dropWhile (fun c => ¬ (c = qc)) :=
            (List.takeWhile_append_dropWhile _ _).symm
          have h3 : (s.drop 7).dropWhile (fun c => ¬ (c = qc)) =
              eSuf ++ ((s.drop 7).dropWhile (fun c => ¬ (c = qc))).drop
                eSuf.length :=
            prefix_eq_append (List.isPrefixOf_iff_prefix.mp hc.2)
          conv_lhs => rw [h1, h2, h3]
          simp [List.append_assoc]
      · rw [if_neg hc] at h
        cases h
    · rw [if_neg hp] at h
      cases h
  · rintro ⟨hne, hq, r, rfl⟩
    have hp : mPre.isPrefixOf (mPre ++ g ++ eSuf ++ r) :=
      List.isPrefixOf_iff_prefix.mpr (by
        rw [List.append_assoc, List.append_assoc]
        exact List.prefix_append mPre _)
    unfold poMatch
    rw [if_pos hp]
    have hdrop : (mPre ++ g ++ eSuf ++ r).drop 7 = g ++ (eSuf ++ r) := by
      rw [List.append_assoc, List.append_assoc]
      exact List.drop_left' rfl
    simp only [hdrop]
    have hall : ∀ a ∈ g, (fun c => decide (¬ (c = qc))) a = true := by
      intro a ha
      simp
      intro haq
      exact hq (haq ▸ ha)
    have htw : (g ++ (eSuf ++ r)).takeWhile (fun c => ¬ (c = qc)) = g := by
      rw [List.takeWhile_append_of_pos hall]
      have : (eSuf ++ r).takeWhile (fun c => ¬ (c = qc)) = [] := by
        show ((qc :: (nlc :: (kw ++ [qc, qc]))) ++ r).takeWhile _ = []
        rw [List.cons_append, List.takeWhile_cons]
        simp
      rw [this, List.append_nil]
    have hdw : (g ++ (eSuf ++ r)).dropWhile (fun c => ¬ (c = qc)) =
        eSuf ++ r := by
      rw [List.dropWhile_append_of_pos hall]
      show ((qc :: (nlc :: (kw ++ [qc, qc]))) ++ r).dropWhile _ = _
      rw [List.cons_append, List.dropWhile_cons]
      simp [eSuf]
    rw [htw, hdw]
    rw [if_pos ⟨hne, List.isPrefixOf_iff_prefix.mpr (List.prefix_append _ _)⟩]

theorem poMatch_nil : poMatch [] = none := by decide

theorem poMatch_no_overlap {g1 : List Char} (hg1 : qc ∉ g1) (r : List Char)
    (j : Nat) (hj1 : 1 ≤ j) (hj2 : j < 18 + g1.length) :
    poMatch ((mPre ++ g1 ++ eSuf ++ r).drop j) = none := by
  cases hm : poMatch ((mPre ++ g1 ++ eSuf ++ r).drop j) with
  | none => rfl
  | some g2 =>
    obtain ⟨hne, hq2, r2, hr2⟩ := poMatch_some_iff.mp hm
    exfalso
    apply selfov g1 g2 hg1 hq2 r j hj1 hj2
    have hsplit : (mPre ++ g1 ++ eSuf ++ r).drop j =
        (mPre ++ g1 ++ eSuf).drop j ++ r := by
      apply List.drop_append_of_le_length
      rw [len_patB]
      omega
    rw [← hsplit, hr2]
    rw [show mPre ++ g2 ++ eSuf ++ r2 = (mPre ++ g2 ++ eSuf) ++ r2 from by
      simp [List.append_assoc]]
    exact List.prefix_append _ _

/-- Full characterisation of the finditer scan: an entry (m, p) is produced
exactly when the pattern matches at offset p - pos of the remaining input,
m is the unescaped group and the group does not start with
Project-Id-Version; positions are strictly increasing and at least pos. -/
theorem scanPo_spec : ∀ (n : Nat) (s : List Char) (pos : Nat), s.length = n →
    (∀ m p, ((m, p) ∈ scanPo s pos ↔
      ∃ j g, p = pos + j ∧ poMatch (s.drop j) = some g ∧
        ¬ pivL.isPrefixOf g ∧ m = unescapePo g)) ∧
    (scanPo s pos).Pairwise (fun a b => a.2 < b.2) ∧
    (∀ e ∈ scanPo s pos, pos ≤ e.2) := by
  intro n
  induction n using Nat.strong_induction_on with
  | _ n ih =>
  intro s pos hs
  cases s with
  | nil =>
    refine ⟨?_, by simp [scanPo, scanPoF], by simp [scanPo, scanPoF]⟩
    intro m p
    constructor
    · intro hmem
      rw [show scanPo [] pos = [] from rfl] at hmem
      exact absurd hmem (List.not_mem_nil _)
    · rintro ⟨j, g, hp, hmj, -, -⟩
      rw [List.drop_nil, poMatch_nil] at hmj
      cases hmj
  | cons c rest =>
    have hn : rest.length + 1 = n := by rw [← hs]; rfl
    cases hm : poMatch (c :: rest) with
    | none =>
      have hstep := scanPo_cons_none hm pos
      obtain ⟨ihm, ihpw, ihpos⟩ := ih rest.length (by omega) rest (pos + 1) rfl
      refine ⟨?_, by rw [hstep]; exact ihpw, ?_⟩
      · intro m p
        rw [hstep, ihm m p]
        constructor
        · rintro ⟨j, g, hp, hmj, hpiv, hm2⟩
          refine ⟨j + 1, g, by omega, ?_, hpiv, hm2⟩
          simpa using hmj
        · rintro ⟨j, g, hp, hmj, hpiv, hm2⟩
          cases j with
          | zero =>
            rw [List.drop_zero, hm] at hmj
            cases hmj
          | succ j =>
            refine ⟨j, g, by omega, ?_, hpiv, hm2⟩
            simpa using hmj
      · rw [hstep]
        intro e he
        have := ihpos e he
        omega
    | some g =>
      obtain ⟨hgne, hgq, r, hsr⟩ := poMatch_some_iff.mp hm
      have hlen : (c :: rest).length = 18 + g.length + r.length := by
        rw [hsr]
        rw [show mPre ++ g ++ eSuf ++ r = (mPre ++ g ++ eSuf) ++ r from by
          simp [List.append_assoc]]
        rw [List.length_append, len_patB]
      have hdropL : (c :: rest).drop (18 + g.length) = r := by
        rw [hsr]
        exact List.drop_left' (len_patB g)
      have hstep := scanPo_cons_some hm pos
      rw [hdropL] at hstep
      have hn2 : 18 + g.length + r.length = n := by rw [← hs, hlen]
      obtain ⟨ihm, ihpw, ihpos⟩ := ih r.length (by omega) r
        (pos + (18 + g.length)) rfl
      have hnov : ∀ j, 1 ≤ j → j < 18 + g.length →
          poMatch ((c :: rest).drop j) = none := by
        intro j h1 h2
        rw [hsr]
        exact poMatch_no_overlap hgq r j h1 h2
      have hdropGe : ∀ j, (c :: rest).drop (18 + g.length + j) = r.drop j := by
        intro j
        rw [← List.drop_drop, hdropL]
      by_cases hpiv : pivL.isPrefixOf g
      · rw [if_pos (Or.inr hpiv)] at hstep
        refine ⟨?_, by rw [hstep]; exact ihpw, ?_⟩
        · intro m p
          rw [hstep, ihm m p]
          constructor
          · rintro ⟨j, g2, hp, hmj, hpiv2, hm2⟩
            refine ⟨18 + g.length + j, g2, by omega, ?_, hpiv2, hm2⟩
            rw [hdropGe]
            exact hmj
          · rintro ⟨j, g2, hp, hmj, hpiv2, hm2⟩
            rcases Nat.lt_or_ge j (18 + g.length) with hjL | hjL
            · rcases Nat.eq_zero_or_pos j with h0 | hpos
              · subst h0
                rw [List.drop_zero, hm] at hmj
                have hg2 : g = g2 := Option.some.inj hmj
                exact absurd (hg2 ▸ hpiv) hpiv2
              · rw [hnov j hpos hjL] at hmj
                cases hmj
            · refine ⟨j - (18 + g.length), g2, by omega, ?_, hpiv2, hm2⟩
              have h3 := hdropGe (j - (18 + g.length))
              rw [show 18 + g.length + (j - (18 + g.length)) = j from by omega]
                at h3
              rw [← h3]
              exact hmj
        · intro e he
          rw [hstep] at he
          have := ihpos e he
          omega
      · have hcond : ¬ (g = [] ∨ pivL.isPrefixOf g) := by
          rintro (h1 | h2)
          · exact hgne h1
          · exact hpiv h2
        rw [if_neg hcond] at hstep
        refine ⟨?_, ?_, ?_⟩
        · intro m p
          rw [hstep, List.mem_cons]
          constructor
          · rintro (heq | hmem)
            · have h1 : m = unescapePo g ∧ p = pos := by
                have := Prod.mk.injEq m p (unescapePo g) pos ▸ heq
                exact ⟨this.1, this.2⟩
              refine ⟨0, g, by omega, ?_, hpiv, h1.1⟩
              rw [List.drop_zero]
              exact hm
            · obtain ⟨j, g2, hp, hmj, hpiv2, hm2⟩ := (ihm m p).mp hmem
              refine ⟨18 + g.length + j, g2, by omega, ?_, hpiv2, hm2⟩
              rw [hdropGe]
              exact hmj
          · rintro ⟨j, g2, hp, hmj, hpiv2, hm2⟩
            rcases Nat.lt_or_ge j (18 + g.length) with hjL | hjL
            · rcases Nat.eq_zero_or_pos j with h0 | hpos
              · subst h0
                rw [List.drop_zero, hm] at hmj
                have hg2 : g = g2 := Option.some.inj hmj
                left
                exact Prod.ext (by rw [hm2, ← hg2]) (by omega)
              · rw [hnov j hpos hjL] at hmj
                cases hmj
            · right
              apply (ihm m p).mpr
              refine ⟨j - (18 + g.length), g2, by omega, ?_, hpiv2, hm2⟩
              have h3 := hdropGe (j - (18 + g.length))
              rw [show 18 + g.length + (j - (18 + g.length)) = j from by omega]
                at h3
              rw [← h3]
              exact hmj
        · rw [hstep]
          apply List.Pairwise.cons
          · intro e he
            have := ihpos e he
            show pos < e.2
            omega
          · exact ihpw
        · rw [hstep]
          intro e he
          rcases List.mem_cons.mp he with rfl | hmem
          · exact le_rfl
          · have := ihpos e hmem
            omega

/-! ## replaceAll: decomposition and basic facts -/

theorem interc_cons {α : Type} (sep p : List α) (q : List α) (ps : List (List α)) :
    interc sep (p :: q :: ps) = p ++ sep ++ interc sep (q :: ps) := rfl

theorem interc_cons_char {α : Type} (sep p : List α) (c : α) (ps : List (List α)) :
    interc sep ((c :: p) :: ps) = c :: interc sep (p :: ps) := by
  cases ps with
  | nil => rfl
  | cons q qs => simp [interc_cons]

theorem head_prefix_interc {α : Type} (sep p : List α) (ps : List (List α)) :
    p <+: interc sep (p :: ps) := by
  cases ps with
  | nil => exact List.prefix_rfl
  | cons q qs =>
    rw [interc_cons, List.append_assoc]
    exact List.prefix_append p _

/-- The fundamental frame decomposition of Python replace-all: the input
splits as parts interleaved with the pattern, the output is the same parts
interleaved with the replacement, and no part still contains the pattern. -/
theorem replaceAll_decomp (pat repl : List Char) (hne : pat ≠ []) :
    ∀ s : List Char, ∃ parts : List (List Char), parts ≠ [] ∧
      s = interc pat parts ∧ replaceAll s pat repl = interc repl parts ∧
      ∀ p ∈ parts, ¬ pat <:+: p := by
  suffices H : ∀ n (s : List Char), s.length = n → ∃ parts : List (List Char),
      parts ≠ [] ∧ s = interc pat parts ∧
      replaceAll s pat repl = interc repl parts ∧ ∀ p ∈ parts, ¬ pat <:+: p by
    intro s
    exact H s.length s rfl
  intro n
  induction n using Nat.strong_induction_on with
  | _ n ih =>
  intro s hs
  subst hs
  match s with
  | [] =>
    refine ⟨[[]], by simp, by simp [interc], ?_, ?_⟩
    · rw [replaceAll_nil]
      rfl
    · intro p hp
      simp at hp
      subst hp
      rw [List.infix_nil]
      exact hne
  | c :: rest =>
    by_cases hp : pat.isPrefixOf (c :: rest)
    · have hpre : pat <+: c :: rest := List.isPrefixOf_iff_prefix.mp hp
      obtain ⟨tail0, htail⟩ := hpre
      have hlen : ((c :: rest).drop pat.length).length < (c :: rest).length := by
        have : 0 < pat.length := List.length_pos.mpr hne
        simp [List.length_drop, List.length_cons]
        omega
      obtain ⟨parts', hne', hs', hr', hnop'⟩ :=
        ih ((c :: rest).drop pat.length).length hlen ((c :: rest).drop pat.length) rfl
      match parts', hne' with
      | p' :: ps', _ =>
      refine ⟨[] :: p' :: ps', by simp, ?_, ?_, ?_⟩
      · rw [interc_cons]
        simp only [List.nil_append]
        rw [← hs', ← htail]
        simp
      · rw [replaceAll_cons_pos hne hp]
        rw [interc_cons]
        simp only [List.nil_append]
        rw [← hr']
      · intro p hpmem
        rcases List.mem_cons.mp hpmem with rfl | hmem
        · rw [List.infix_nil]
          exact hne
        · exact hnop' p hmem
    · have hlen : rest.length < (c :: rest).length := by simp
      obtain ⟨parts', hne', hs', hr', hnop'⟩ := ih rest.length hlen rest rfl
      match parts', hne' with
      | p' :: ps', _ =>
      refine ⟨(c :: p') :: ps', by simp, ?_, ?_, ?_⟩
      · rw [interc_cons_char, ← hs']
      · rw [replaceAll_cons_neg hp, interc_cons_char, ← hr']
      · intro p hpmem
        rcases List.mem_cons.mp hpmem with rfl | hmem
        · intro hinf
          rcases List.infix_cons_iff.mp hinf with hpr | hinf'
          · have h1 : p' <+: rest := hs' ▸ head_prefix_interc pat p' ps'
            have h2 : c :: p' <+: c :: rest := List.cons_prefix_iff.mpr ⟨rfl, h1⟩
            exact hp (List.isPrefixOf_iff_prefix.mpr (hpr.trans h2))
          · exact hnop' p' (List.mem_cons_self _ _) hinf'
        · exact hnop' p (List.mem_cons_of_mem _ hmem)

theorem replaceAll_id_of_no_match {s pat repl : List Char} (h : ¬ pat <:+: s) :
    replaceAll s pat repl = s := by
  have hne : pat ≠ [] := by
    rintro rfl
    exact h List.nil_infix
  induction s with
  | nil => exact replaceAll_nil pat repl
  | cons c rest ih =>
    have hnp : ¬ pat.isPrefixOf (c :: rest) = true := fun hp =>
      h ((List.isPrefixOf_iff_prefix.mp hp).isInfix)
    rw [replaceAll_cons_neg hnp]
    have : ¬ pat <:+: rest := fun hinf => h (hinf.trans (List.infix_cons (List.infix_refl rest)))
    rw [ih this]

theorem replaceFirst_at (pat repl pre suf : List Char) (hne : pat ≠ [])
    (hmin : ∀ x y : List Char, pre ++ pat ++ suf = x ++ pat ++ y →
      pre.length ≤ x.length) :
    replaceFirst (pre ++ pat ++ suf) pat repl = pre ++ repl ++ suf := by
  induction pre with
  | nil =>
    match pat, hne with
    | pc :: pr, _ =>
    show replaceFirst (pc :: (pr ++ suf)) (pc :: pr) repl = _
    rw [replaceFirst]
    have hpre : (pc :: pr).isPrefixOf (pc :: (pr ++ suf)) = true :=
      List.isPrefixOf_iff_prefix.mpr ⟨suf, by simp⟩
    rw [if_pos hpre]
    have : List.drop (pc :: pr).length (pc :: (pr ++ suf)) = suf := by
      have := List.drop_left (pc :: pr) suf
      simpa using this
    rw [this]
    simp
  | cons c pre' ih =>
    show replaceFirst (c :: (pre' ++ pat ++ suf)) pat repl = _
    rw [replaceFirst]
    have hnp : ¬ pat.isPrefixOf (c :: (pre' ++ pat ++ suf)) = true := by
      intro hp
      obtain ⟨y, hy⟩ := List.isPrefixOf_iff_prefix.mp hp
      have := hmin [] y (by simpa using hy.symm)
      simp at this
    rw [if_neg hnp]
    have ih2 := ih (fun x y hxy => by
      have := hmin (c :: x) y (by simpa using congrArg (c :: ·) hxy)
      simpa using this)
    simp only [List.cons_append] at ih2 ⊢
    rw [ih2]

theorem replaceAll_at (pat repl pre suf : List Char) (hne : pat ≠ [])
    (hsuf : ¬ pat <:+: suf)
    (hmin : ∀ x y : List Char, pre ++ pat ++ suf = x ++ pat ++ y →
      pre.length ≤ x.length) :
    replaceAll (pre ++ pat ++ suf) pat repl = pre ++ repl ++ suf := by
  induction pre with
  | nil =>
    match pat, hne with
    | pc :: pr, _ =>
    show replaceAll (pc :: (pr ++ suf)) (pc :: pr) repl = _
    have hpre : (pc :: pr).isPrefixOf (pc :: (pr ++ suf)) = true :=
      List.isPrefixOf_iff_prefix.mpr ⟨suf, by simp⟩
    rw [replaceAll_cons_pos (by simp) hpre]
    have hd : List.drop (pc :: pr).length (pc :: (pr ++ suf)) = suf := by
      have := List.drop_left (pc :: pr) suf
      simpa using this
    rw [hd, replaceAll_id_of_no_match hsuf]
    simp
  | cons c pre' ih =>
    show replaceAll (c :: (pre' ++ pat ++ suf)) pat repl = _
    have hnp : ¬ pat.isPrefixOf (c :: (pre' ++ pat ++ suf)) = true := by
      intro hp
      obtain ⟨y, hy⟩ := List.isPrefixOf_iff_prefix.mp hp
      have := hmin [] y (by simpa using hy.symm)
      simp at this
    rw [replaceAll_cons_neg hnp]
    have ih2 := ih (fun x y hxy => by
      have := hmin (c :: x) y (by simpa using congrArg (c :: ·) hxy)
      simpa using this)
    simp only [List.cons_append] at ih2 ⊢
    rw [ih2]

/-! ## Batching: pyRange and runBatches -/

theorem pyRange_nil {s t b : Nat} (h : ¬ s < t) : pyRange s t b = [] := by
  unfold pyRange
  have h0 : t - s = 0 := by omega
  rw [h0]
  rfl

theorem pyRange_cons {s t b : Nat} (hb : 0 < b) (h : s < t) :
    pyRange s t b = s :: pyRange (s + b) t b := by
  unfold pyRange
  have h1 : t - s = (t - s - 1) + 1 := by omega
  rw [h1]
  show (if 0 < b ∧ s < t then s :: pyRangeF (t - s - 1) (s + b) t b else []) = _
  rw [if_pos ⟨hb, h⟩]
  congr 1
  exact pyRangeF_congr _ _ _ _ _ (by omega) (by omega)

theorem pyRange_eq (b : Nat) (hb : 0 < b) (t s : Nat) :
    pyRange s t b = (List.range ((t - s + b - 1) / b)).map (fun k => s + k * b) := by
  suffices H : ∀ fuel t s, t - s ≤ fuel →
      pyRange s t b =
        (List.range ((t - s + b - 1) / b)).map (fun k => s + k * b) by
    exact H (t - s) t s le_rfl
  intro fuel
  induction fuel with
  | zero =>
    intro t s hf
    have hst : ¬ s < t := by omega
    rw [pyRange_nil hst]
    have h0 : t - s = 0 := by omega
    rw [h0]
    have : (0 + b - 1) / b = 0 := Nat.div_eq_of_lt (by omega)
    rw [this]
    rfl
  | succ fuel ih =>
    intro t s hf
    by_cases hst : s < t
    · rw [pyRange_cons hb hst]
      rw [ih t (s + b) (by omega)]
      have hx : 1 ≤ t - s := by omega
      have hceil : (t - s + b - 1) / b = (t - s - 1) / b + 1 := by
        have : t - s + b - 1 = (t - s - 1) + b := by omega
        rw [this, Nat.add_div_right _ hb]
      have hceil2 : (t - (s + b) + b - 1) / b = (t - s - 1) / b := by
        by_cases hxb : b ≤ t - s
        · have : t - (s + b) + b - 1 = t - s - 1 := by omega
          rw [this]
        · have h1 : t - (s + b) = 0 := by omega
          rw [h1]
          have h2 : (0 + b - 1) / b = 0 := Nat.div_eq_of_lt (by omega)
          rw [h2]
          exact (Nat.div_eq_of_lt (by omega)).symm
      rw [hceil, hceil2, List.range_succ_eq_map]
      simp only [List.map_cons, List.map_map]
      congr 1
      · simp
      · apply List.map_congr_left
        intro k _
        simp only [Function.comp_apply, Nat.succ_eq_add_one]
        ring
    · rw [pyRange_nil hst]
      have h0 : t - s = 0 := by omega
      rw [h0]
      have : (0 + b - 1) / b = 0 := Nat.div_eq_of_lt (by omega)
      rw [this]
      rfl

theorem runBatches_calls {D : Type} (api : List (List Char) → List (List Char))
    (unt : List (List Char × Nat)) (bs : Nat) (δ : D) (total : Nat) :
    ∀ (is : List Nat) (st : List Char × Nat),
      (runBatches api unt bs δ total is st).2.1 =
        is.map (fun i => ((unt.drop i).take bs).map Prod.fst) := by
  intro is
  induction is with
  | nil => intro st; rfl
  | cons i is ih =>
    intro st
    simp only [runBatches, List.map_cons]
    rw [ih]

theorem runBatches_events {D : Type} (api : List (List Char) → List (List Char))
    (unt : List (List Char × Nat)) (bs : Nat) (δ : D) (total : Nat)
    (hbs : 0 < bs) :
    ∀ (fuel i : Nat) (st : List Char × Nat), total - i ≤ fuel →
      (runBatches api unt bs δ total (pyRange i total bs) st).2.2 =
        interc [PoEvent.sleep δ]
          ((pyRange i total bs).map
            (fun j => [PoEvent.call (((unt.drop j).take bs).map Prod.fst)])) := by
  intro fuel
  induction fuel with
  | zero =>
    intro i st hf
    have hst : ¬ i < total := by omega
    rw [pyRange_nil hst]
    rfl
  | succ fuel ih =>
    intro i st hf
    by_cases hst : i < total
    · rw [pyRange_cons hbs hst]
      simp only [runBatches, List.map_cons]
      by_cases hnext : i + bs < total
      · rw [if_pos hnext]
        rw [ih (i + bs) _ (by omega)]
        have hne : pyRange (i + bs) total bs ≠ [] := by
          rw [pyRange_cons hbs hnext]
          simp
        cases hpr : pyRange (i + bs) total bs with
        | nil => exact absurd hpr hne
        | cons j js => simp [interc_cons]
      · rw [if_neg hnext]
        have hpr : pyRange (i + bs) total bs = [] := pyRange_nil (by omega)
        rw [hpr]
        rfl
    · rw [pyRange_nil hst]
      rfl

/-! ## Claim C5: batching in file order -/

/-- C5: translate_po_file batches the extracted untranslated messages in
file order: the k-th translate_text call receives exactly the texts of the
slice from k*batch_size to (k+1)*batch_size of the extracted list, the
number of calls is the ceiling of total / batch_size, and every batch
except possibly the last has exactly batch_size messages. -/
theorem batching_slices {D : Type} (api : List (List Char) → List (List Char))
    (content : List Char) (bs : Nat) (δ : D) (hbs : 0 < bs) :
    (translate_po_file api content bs δ).calls =
      (List.range
          (((extract_untranslated_messages content).length + bs - 1) / bs)).map
        (fun k =>
          (((extract_untranslated_messages content).drop (k * bs)).take bs).map
            Prod.fst) ∧
    ∀ k : Nat,
      k + 1 < ((extract_untranslated_messages content).length + bs - 1) / bs →
      (((extract_untranslated_messages content).drop (k * bs)).take bs).length
        = bs := by
  constructor
  · by_cases hE : extract_untranslated_messages content = []
    · simp only [translate_po_file]
      rw [if_pos hE, hE]
      simp only [List.length_nil]
      have : (0 + bs - 1) / bs = 0 := Nat.div_eq_of_lt (by omega)
      rw [this]
      rfl
    · simp only [translate_po_file]
      rw [if_neg hE]
      rw [runBatches_calls]
      rw [pyRange_eq bs hbs]
      rw [List.map_map]
      simp only [Nat.sub_zero]
      apply List.map_congr_left
      intro k _
      simp [Function.comp]
  · intro k hk
    have hk2 : k + 2 ≤ ((extract_untranslated_messages content).length + bs - 1) / bs := by
      omega
    have h1 : (k + 2) * bs ≤ (extract_untranslated_messages content).length + bs - 1 :=
      (Nat.le_div_iff_mul_le hbs).mp hk2
    rw [show (k + 2) * bs = k * bs + 2 * bs by ring] at h1
    simp only [List.length_take, List.length_drop]
    generalize hm : k * bs = m at h1 ⊢
    omega

theorem batching_slices_witness :
    0 < 2 ∧
    ((translate_po_file (fun ts => ts) sampleContent 2 (0 : Nat)).calls =
      (List.range
          (((extract_untranslated_messages sampleContent).length + 2 - 1) / 2)).map
        (fun k =>
          (((extract_untranslated_messages sampleContent).drop (k * 2)).take 2).map
            Prod.fst) ∧
    ∀ k : Nat,
      k + 1 < ((extract_untranslated_messages sampleContent).length + 2 - 1) / 2 →
      (((extract_untranslated_messages sampleContent).drop (k * 2)).take 2).length
        = 2) :=
  ⟨by decide, batching_slices (fun ts => ts) sampleContent 2 (0 : Nat) (by decide)⟩

/-! ## Claim C6: one fixed sleep between consecutive batches -/

/-- C6: the event trace of translate_po_file is exactly the list of
translate_text calls interleaved with single sleep events of the fixed
duration: one sleep between any two consecutive batch calls, the same delay
each time, and no sleep after the final batch. -/
theorem sleep_between_batches {D : Type} (api : List (List Char) → List (List Char))
    (content : List Char) (bs : Nat) (δ : D) (hbs : 0 < bs) :
    (translate_po_file api content bs δ).events =
      interc [PoEvent.sleep δ]
        ((translate_po_file api content bs δ).calls.map
          (fun t => [PoEvent.call t])) := by
  by_cases hE : extract_untranslated_messages content = []
  · simp only [translate_po_file]
    rw [if_pos hE]
    rfl
  · simp only [translate_po_file]
    rw [if_neg hE]
    rw [runBatches_events api _ bs δ _ hbs
      (extract_untranslated_messages content).length 0 _ (by omega)]
    rw [runBatches_calls]
    rw [List.map_map]
    rfl

theorem sleep_between_batches_witness :
    0 < 2 ∧
    (translate_po_file (fun ts => ts) sampleContent 2 (37 : Nat)).events =
      interc [PoEvent.sleep (37 : Nat)]
        ((translate_po_file (fun ts => ts) sampleContent 2 (37 : Nat)).calls.map
          (fun t => [PoEvent.call t])) :=
  ⟨by decide, sleep_between_batches (fun ts => ts) sampleContent 2 (37 : Nat)
    (by decide)⟩

/-! ## Claim C4: translate_text catches request failures -/

/-- C4: if the HTTP request inside translate_text raises, the exception is
caught and translate_text returns a list of empty strings whose length is
the length of its input; in particular the result is a normal return
(Except.ok), so no exception propagates to the caller. -/
theorem translate_text_catches_failure (key : List Char)
    (texts : List (List Char)) (msg : List Char) (hkey : key ≠ []) :
    translate_text (some key) texts (ApiOutcome.failure msg) =
      Except.ok (List.replicate texts.length []) := by
  unfold translate_text
  have h1 : ¬ (some key = none ∨ some key = some ([] : List Char)) := by
    simp [hkey]
  rw [if_neg h1]
  by_cases ht : texts = []
  · subst ht
    simp
  · rw [if_neg ht]

theorem translate_text_catches_failure_witness :
    translate_text (some ['k']) [['h', 'i'], ['y', 'o']]
      (ApiOutcome.failure ['e']) = Except.ok [[], []] := by
  have h := translate_text_catches_failure ['k'] [['h', 'i'], ['y', 'o']] ['e']
    (by decide)
  simpa using h

/-! ## Claim C10: key check and empty input -/

/-- C10: translate_text fails with ValueError when the API key is unset,
whatever the request outcome would be (so before any request is made), and
with the key set it returns [] on an empty input list, again independently
of the request outcome. -/
theorem translate_text_key_and_empty :
    (∀ (texts : List (List Char)) (outcome : ApiOutcome),
      translate_text none texts outcome = Except.error ()) ∧
    (∀ (key : List Char) (outcome : ApiOutcome), key ≠ [] →
      translate_text (some key) [] outcome = Except.ok []) := by
  constructor
  · intro texts outcome
    unfold translate_text
    rw [if_pos (Or.inl rfl)]
  · intro key outcome hkey
    unfold translate_text
    have h1 : ¬ (some key = none ∨ some key = some ([] : List Char)) := by
      simp [hkey]
    rw [if_neg h1, if_pos rfl]

theorem translate_text_key_and_empty_witness :
    translate_text (some ['k']) [] (ApiOutcome.success [some ['x']]) =
      Except.ok [] :=
  translate_text_key_and_empty.2 ['k'] (ApiOutcome.success [some ['x']])
    (by decide)

/-! ## Membership facts about replaceAll -/

theorem mem_repl_of_occurs {s pat repl : List Char} (hne : pat ≠ [])
    (h : pat <:+: s) {c : Char} (hc : c ∈ repl) :
    c ∈ replaceAll s pat repl := by
  induction s with
  | nil =>
    rw [List.infix_nil] at h
    exact absurd h hne
  | cons c0 rest ih =>
    by_cases hp : pat.isPrefixOf (c0 :: rest)
    · rw [replaceAll_cons_pos hne hp]
      exact List.mem_append_left _ hc
    · rw [replaceAll_cons_neg hp]
      rcases List.infix_cons_iff.mp h with hpr | hinf
      · exact absurd (List.isPrefixOf_iff_prefix.mpr hpr) hp
      · exact List.mem_cons_of_mem _ (ih hinf)

theorem mem_of_mem_replaceAll {s pat repl : List Char} {c : Char} :
    c ∈ replaceAll s pat repl → c ∈ s ∨ c ∈ repl := by
  by_cases hne : pat = []
  · subst hne
    intro h
    left
    have : replaceAll s [] repl = s := by
      cases s <;> rfl
    rwa [this] at h
  suffices H : ∀ n (s : List Char), s.length = n →
      c ∈ replaceAll s pat repl → c ∈ s ∨ c ∈ repl by
    exact H s.length s rfl
  intro n
  induction n using Nat.strong_induction_on with
  | _ n ih =>
  intro s hs hmem
  cases s with
  | nil =>
    rw [replaceAll_nil] at hmem
    exact absurd hmem (List.not_mem_nil _)
  | cons c0 rest =>
    have hn : rest.length + 1 = n := by rw [← hs]; rfl
    by_cases hp : pat.isPrefixOf (c0 :: rest)
    · rw [replaceAll_cons_pos hne hp] at hmem
      rcases List.mem_append.mp hmem with h1 | h2
      · exact Or.inr h1
      · have hlt : ((c0 :: rest).drop pat.length).length < n := by
          have : 0 < pat.length := List.length_pos.mpr hne
          simp only [List.length_drop, List.length_cons]
          omega
        rcases ih _ hlt _ rfl h2 with h3 | h3
        · exact Or.inl (List.drop_subset _ _ h3)
        · exact Or.inr h3
    · rw [replaceAll_cons_neg hp] at hmem
      rcases List.mem_cons.mp hmem with rfl | h2
      · exact Or.inl (List.mem_cons_self _ _)
      · rcases ih rest.length (by omega) rest rfl h2 with h3 | h3
        · exact Or.inl (List.mem_cons_of_mem _ h3)
        · exact Or.inr h3

theorem singleton_infix_iff {c : Char} {s : List Char} :
    [c] <:+: s ↔ c ∈ s := by
  constructor
  · intro h
    exact h.subset (List.mem_singleton_self c)
  · intro h
    obtain ⟨l1, l2, rfl⟩ := List.append_of_mem h
    exact ⟨l1, l2, by simp⟩

/-- On groups produced by the extraction regex (quote-free) whose unescaped
form has no newline and no tab, unescaping is the identity and so is
re-escaping. -/
theorem unescape_escape_id {g : List Char} (hq : qc ∉ g)
    (hnl : nlc ∉ unescapePo g) (htb : tbc ∉ unescapePo g) :
    unescapePo g = g ∧ escapePo g = g := by
  have hA : ¬ bq <:+: replaceAll (replaceAll g bn [nlc]) bt [tbc] := by
    intro hinf
    have hqmem : qc ∈ replaceAll (replaceAll g bn [nlc]) bt [tbc] :=
      hinf.subset (by decide)
    rcases mem_of_mem_replaceAll hqmem with h1 | h1
    · rcases mem_of_mem_replaceAll h1 with h2 | h2
      · exact hq h2
      · simp [nlc, qc] at h2
    · simp [tbc, qc] at h1
  have e3 : unescapePo g =
      replaceAll (replaceAll g bn [nlc]) bt [tbc] := by
    unfold unescapePo
    rw [replaceAll_id_of_no_match hA]
  have hB : ¬ bt <:+: replaceAll g bn [nlc] := by
    intro hinf
    have : tbc ∈ unescapePo g := by
      rw [e3]
      exact mem_repl_of_occurs (by decide) hinf (by decide)
    exact htb this
  have e2 : replaceAll (replaceAll g bn [nlc]) bt [tbc] =
      replaceAll g bn [nlc] := replaceAll_id_of_no_match hB
  have hC : ¬ bn <:+: g := by
    intro hinf
    have : nlc ∈ unescapePo g := by
      rw [e3, e2]
      exact mem_repl_of_occurs (by decide) hinf (by decide)
    exact hnl this
  have e1 : replaceAll g bn [nlc] = g := replaceAll_id_of_no_match hC
  have huneq : unescapePo g = g := by rw [e3, e2, e1]
  refine ⟨huneq, ?_⟩
  have hgs : nlc ∉ g ∧ tbc ∉ g := by
    rw [huneq] at hnl htb
    exact ⟨hnl, htb⟩
  unfold escapePo
  rw [replaceAll_id_of_no_match (fun h => hgs.1 (singleton_infix_iff.mp h)),
    replaceAll_id_of_no_match (fun h => hgs.2 (singleton_infix_iff.mp h)),
    replaceAll_id_of_no_match (fun h => hq (singleton_infix_iff.mp h))]

/-! ## No pattern occurrence can intersect a replacement region -/

/-- coreA: the two-line pattern msgid "K1"␊msgstr "" cannot occur starting
inside a replacement text msgid "K2"␊msgstr "V2", whatever follows it. -/
theorem coreA (K1 K2 V2 b : List Char)
    (hK1q : qc ∉ K1) (hK1n : nlc ∉ K1)
    (hK2q : qc ∉ K2) (hK2n : nlc ∉ K2) (hK2ne : K2 ≠ [])
    (hVq : qc ∉ V2) (hVne : V2 ≠ [])
    (hVs : ¬ ['m', 's', 'g', 'i', 'd', ' '] <:+ V2)
    (k : Nat) (hk : k < 18 + K2.length + V2.length) :
    ¬ (mPre ++ K1 ++ eSuf) <+:
      ((mPre ++ K2 ++ mSuf2 ++ V2 ++ [qc]).drop k ++ b) := by
  intro h
  have hS := len_repB K2 V2
  have hLlen := len_patB K1
  have tr : ∀ {i : Nat} {c : Char}, (mPre ++ K1 ++ eSuf)[i]? = some c →
      ∀ jj : Nat, k + i = jj → jj < 18 + K2.length + V2.length →
      (mPre ++ K2 ++ mSuf2 ++ V2 ++ [qc])[jj]? = some c := by
    intro i c hP jj hij hlt
    exact prefix_drop_transfer h hP hij (by rw [hS]; omega)
  have hmPreM : ∀ i, i < 7 → 1 ≤ i → ¬ (mPre[i]? = some 'm') := by decide
  have hmPreQ : ∀ i, i < 6 → ¬ (mPre[i]? = some qc) := by decide
  rcases Nat.eq_zero_or_pos k with rfl | hkpos
  · -- k = 0: heads aligned
    rcases Nat.lt_trichotomy K1.length K2.length with hc | hc | hc
    · have hL : (mPre ++ K1 ++ eSuf)[7 + K1.length + 0]? = some qc := by
        rw [patB_suf K1 0]
        decide
      have h1 := tr hL (7 + K1.length) (by omega) (by omega)
      rw [repB_K K2 V2 (by omega)] at h1
      exact hK2q (List.getElem?_mem h1)
    · have hL : (mPre ++ K1 ++ eSuf)[7 + K1.length + 10]? = some qc := by
        rw [patB_suf K1 10]
        decide
      have h1 := tr hL (17 + K2.length + 0) (by omega) (by omega)
      rw [@repB_V K2 V2 0 (by have := List.length_pos.mpr hVne; omega)] at h1
      exact hVq (List.getElem?_mem h1)
    · obtain ⟨c, hc0⟩ := getp_exists K1 (i := K2.length) (by omega)
      have hL : (mPre ++ K1 ++ eSuf)[7 + K2.length]? = some c := by
        rw [patB_K K1 (by omega)]
        exact hc0
      have h1 := tr hL (7 + K2.length + 0) (by omega) (by omega)
      rw [repB_suf2 K2 V2 (by omega)] at h1
      have hcq : c = qc := by
        have he : mSuf2[(0 : Nat)]? = some qc := by decide
        rw [he] at h1
        exact (Option.some.inj h1).symm
      subst hcq
      exact hK1q (List.getElem?_mem hc0)
  · rcases Nat.lt_or_ge k 7 with h7 | h7
    · -- 1 ≤ k ≤ 6
      have hL0 : (mPre ++ K1 ++ eSuf)[0]? = some 'm' := by
        rw [patB_pre K1 (by omega)]
        decide
      have h1 := tr hL0 k (by omega) (by omega)
      rw [repB_pre K2 V2 (by omega)] at h1
      exact hmPreM k (by omega) (by omega) h1
    · rcases Nat.lt_or_ge k (7 + K2.length) with hcK | hcK
      · -- inside K2; cc := 7 + K2.length - k ∈ 1..
        rcases Nat.lt_or_ge (7 + K2.length - k) 6 with hc5 | hc6
        · -- cc ≤ 5
          obtain ⟨c, hc0⟩ := getp_exists (mPre ++ K1 ++ eSuf)
            (i := 7 + K2.length - k) (by rw [hLlen]; omega)
          have h1 := tr hc0 (7 + K2.length + 0) (by omega) (by omega)
          rw [repB_suf2 K2 V2 (by omega)] at h1
          have hcq : c = qc := by
            have he : mSuf2[(0 : Nat)]? = some qc := by decide
            rw [he] at h1
            exact (Option.some.inj h1).symm
          subst hcq
          rw [patB_pre K1 (by omega)] at hc0
          exact hmPreQ _ (by omega) hc0
        · rcases Nat.lt_or_ge (7 + K2.length - k) 7 with hc6e | hc7
          · -- cc = 6
            obtain ⟨c, hc0⟩ := getp_exists (mPre ++ K1 ++ eSuf) (i := 7)
              (by rw [hLlen]; omega)
            have h1 := tr hc0 (7 + K2.length + 1) (by omega) (by omega)
            rw [repB_suf2 K2 V2 (by omega)] at h1
            have hcn : c = nlc := by
              have he : mSuf2[(1 : Nat)]? = some nlc := by decide
              rw [he] at h1
              exact (Option.some.inj h1).symm
            subst hcn
            cases K1 with
            | nil =>
              have : (mPre ++ ([] : List Char) ++ eSuf)[7]? = some qc := by
                decide
              rw [this] at hc0
              exact absurd (Option.some.inj hc0) (by decide)
            | cons k0 K1t =>
              rw [show (7 : Nat) = 7 + 0 from rfl,
                patB_K (k0 :: K1t) (by simp)] at hc0
              exact hK1n (List.getElem?_mem hc0)
          · -- cc ≥ 7
            have hL6 : (mPre ++ K1 ++ eSuf)[6]? = some qc := by
              rw [patB_pre K1 (by omega)]
              decide
            have h1 := tr hL6 (7 + (k - 1)) (by omega) (by omega)
            rw [repB_K K2 V2 (by omega)] at h1
            exact hK2q (List.getElem?_mem h1)
      · rcases Nat.lt_or_ge k (17 + K2.length) with hcS | hcS
        · -- inside mSuf2; t := k - 7 - K2.length ∈ 0..9
          by_cases ht2 : k = 7 + K2.length + 2
          · have hL3 : (mPre ++ K1 ++ eSuf)[3]? = some 'i' := by
              rw [patB_pre K1 (by omega)]
              decide
            have h1 := tr hL3 (7 + K2.length + 5) (by omega) (by omega)
            rw [repB_suf2 K2 V2 (by omega)] at h1
            exact absurd h1 (by decide)
          · have hL0 : (mPre ++ K1 ++ eSuf)[0]? = some 'm' := by
              rw [patB_pre K1 (by omega)]
              decide
            have h1 := tr hL0 (7 + K2.length + (k - 7 - K2.length)) (by omega)
              (by omega)
            rw [repB_suf2 K2 V2 (by omega)] at h1
            have hval : ∀ t, t < 10 → t ≠ 2 → ¬ (mSuf2[t]? = some 'm') := by
              decide
            exact hval (k - 7 - K2.length) (by omega) (by omega) h1
        · rcases Nat.lt_or_ge k (17 + K2.length + V2.length) with hcV | hcV
          · -- inside V2; v := k - 17 - K2.length, w := V2.length - v ≥ 1
            rcases Nat.lt_or_ge (V2.length - (k - 17 - K2.length)) 6
              with hw5 | hw6
            · -- w ≤ 5
              obtain ⟨c, hc0⟩ := getp_exists (mPre ++ K1 ++ eSuf)
                (i := V2.length - (k - 17 - K2.length)) (by rw [hLlen]; omega)
              have h1 := tr hc0 (17 + K2.length + V2.length) (by omega)
                (by omega)
              rw [repB_last K2 V2] at h1
              have hcq : c = qc := (Option.some.inj h1).symm
              subst hcq
              rw [patB_pre K1 (by omega)] at hc0
              exact hmPreQ _ (by omega) hc0
            · rcases Nat.lt_or_ge (V2.length - (k - 17 - K2.length)) 7
                with hw6e | hw7
              · -- w = 6 : V2 ends with the six characters msgid␣
                exfalso
                apply hVs
                have hlist : ∀ i, i < 6 →
                    (['m', 's', 'g', 'i', 'd', ' '] : List Char)[i]? =
                      mPre[i]? := by decide
                have hget : ∀ i, i < 6 →
                    V2[(k - 17 - K2.length) + i]? =
                      (['m', 's', 'g', 'i', 'd', ' '] : List Char)[i]? := by
                  intro i hi
                  obtain ⟨c, hc0⟩ := getp_exists (mPre ++ K1 ++ eSuf) (i := i)
                    (by rw [hLlen]; omega)
                  have h1 := tr hc0 (17 + K2.length + ((k - 17 - K2.length) + i))
                    (by omega) (by omega)
                  rw [repB_V K2 V2 (by omega)] at h1
                  rw [patB_pre K1 (by omega)] at hc0
                  rw [h1, hlist i hi]
                  exact hc0.symm
                refine ⟨V2.take (k - 17 - K2.length), ?_⟩
                have hdrop : V2.drop (k - 17 - K2.length) =
                    ['m', 's', 'g', 'i', 'd', ' '] := by
                  apply List.ext_getElem?
                  intro i
                  rcases Nat.lt_or_ge i 6 with hi | hi
                  · rw [getp_drop]
                    exact hget i hi
                  · rw [List.getElem?_eq_none, List.getElem?_eq_none]
                    · simp
                      omega
                    · simp
                      omega
                rw [← hdrop]
                exact List.take_append_drop _ _
              · -- w ≥ 7
                have hL6 : (mPre ++ K1 ++ eSuf)[6]? = some qc := by
                  rw [patB_pre K1 (by omega)]
                  decide
                have h1 := tr hL6 (17 + K2.length + ((k - 17 - K2.length) + 6))
                  (by omega) (by omega)
                rw [repB_V K2 V2 (by omega)] at h1
                exact hVq (List.getElem?_mem h1)
          · -- k = 17 + K2.length + V2.length (the final quote)
            have hL0 : (mPre ++ K1 ++ eSuf)[0]? = some 'm' := by
              rw [patB_pre K1 (by omega)]
              decide
            have h1 := tr hL0 (17 + K2.length + V2.length) (by omega) (by omega)
            rw [repB_last K2 V2] at h1
            exact absurd (Option.some.inj h1) (by decide)

/-- coreB: no proper tail of the two-line pattern msgid "K1"␊msgstr ""
(an occurrence that starts before the region) can continue as a prefix of
the replacement text msgid "K2"␊msgstr "V2" followed by anything. -/
theorem coreB (K1 K2 V2 b : List Char)
    (hK1q : qc ∉ K1) (hK1n : nlc ∉ K1)
    (hK2n : nlc ∉ K2) (hK2ne : K2 ≠ [])
    (d : Nat) (hd1 : 1 ≤ d) (hd2 : d < 18 + K1.length) :
    ¬ ((mPre ++ K1 ++ eSuf).drop d) <+:
      ((mPre ++ K2 ++ mSuf2 ++ V2 ++ [qc]) ++ b) := by
  intro h
  have hLlen := len_patB K1
  have tr : ∀ {i : Nat} {c : Char}, (mPre ++ K1 ++ eSuf)[d + i]? = some c →
      i < 18 + K2.length + V2.length →
      (mPre ++ K2 ++ mSuf2 ++ V2 ++ [qc])[i]? = some c := by
    intro i c hP hlt
    have h1 : ((mPre ++ K1 ++ eSuf).drop d)[i]? = some c := by
      rw [getp_drop]
      exact hP
    have h2 := pref_getp h h1
    rw [List.getElem?_append_left (by rw [len_repB]; omega)] at h2
    exact h2
  have hmPreM : ∀ i, i < 7 → 1 ≤ i → ¬ (mPre[i]? = some 'm') := by decide
  have hmPreQ : ∀ i, i < 6 → ¬ (mPre[i]? = some qc) := by decide
  rcases Nat.lt_or_ge d 7 with h7 | h7
  · -- 1 ≤ d ≤ 6: heads: P1[d] vs S[0] = m
    obtain ⟨c, hc0⟩ := getp_exists (mPre ++ K1 ++ eSuf) (i := d)
      (by rw [hLlen]; omega)
    have h1 := tr (by rw [Nat.add_zero]; exact hc0) (show 0 < _ by omega)
    rw [repB_pre K2 V2 (by omega)] at h1
    have hcm : c = 'm' := by
      have he : mPre[(0 : Nat)]? = some 'm' := by decide
      rw [he] at h1
      exact (Option.some.inj h1).symm
    subst hcm
    rw [patB_pre K1 (by omega)] at hc0
    exact hmPreM d (by omega) (by omega) hc0
  · rcases Nat.lt_or_ge d (7 + K1.length) with hdK | hdK
    · -- d within K1; rr := 7 + K1.length - d ∈ 1..K1.length
      rcases Nat.lt_or_ge (7 + K1.length - d) 6 with hr5 | hr6
      · -- rr ≤ 5: left eSuf[0] = qc at offset rr; right mPre[rr]
        have hL : (mPre ++ K1 ++ eSuf)[7 + K1.length + 0]? = some qc := by
          rw [patB_suf K1 0]
          decide
        have h1 := tr (i := 7 + K1.length - d)
          (by rw [show d + (7 + K1.length - d) = 7 + K1.length + 0 from by
            omega]; exact hL) (by omega)
        rw [repB_pre K2 V2 (by omega)] at h1
        exact hmPreQ _ (by omega) h1
      · rcases Nat.lt_or_ge (7 + K1.length - d) 7 with hr6e | hr7
        · -- rr = 6: left eSuf[1] = nlc at offset 7; right K2[0]
          have hL : (mPre ++ K1 ++ eSuf)[7 + K1.length + 1]? = some nlc := by
            rw [patB_suf K1 1]
            decide
          have h1 := tr (i := 7)
            (by rw [show d + 7 = 7 + K1.length + 1 from by omega]; exact hL)
            (by omega)
          rw [show (7 : Nat) = 7 + 0 from rfl,
            repB_K K2 V2 (by have := List.length_pos.mpr hK2ne; omega)] at h1
          exact hK2n (List.getElem?_mem h1)
        · -- rr ≥ 7: left K1 char at offset 6; right mPre[6] = qc
          obtain ⟨c, hc0⟩ := getp_exists K1 (i := d - 1) (by omega)
          have hL : (mPre ++ K1 ++ eSuf)[7 + (d - 1)]? = some c := by
            rw [patB_K K1 (by omega)]
            exact hc0
          have h1 := tr (i := 6)
            (by rw [show d + 6 = 7 + (d - 1) from by omega]; exact hL)
            (by omega)
          rw [repB_pre K2 V2 (by omega)] at h1
          have hcq : c = qc := by
            have he : mPre[(6 : Nat)]? = some qc := by decide
            rw [he] at h1
            exact (Option.some.inj h1).symm
          subst hcq
          exact hK1q (List.getElem?_mem hc0)
    · -- d within eSuf; t := d - 7 - K1.length ∈ 0..10
      by_cases ht2 : d = 7 + K1.length + 2
      · -- t = 2: left eSuf[5] = s at offset 3; right mPre[3] = i
        have hL : (mPre ++ K1 ++ eSuf)[7 + K1.length + 5]? = some 's' := by
          rw [patB_suf K1 5]
          decide
        have h1 := tr (i := 3)
          (by rw [show d + 3 = 7 + K1.length + 5 from by omega]; exact hL)
          (by omega)
        rw [repB_pre K2 V2 (by omega)] at h1
        exact absurd h1 (by decide)
      · -- t ≠ 2: left eSuf[t] at offset 0; right mPre[0] = m
        obtain ⟨c, hc0⟩ := getp_exists eSuf (i := d - 7 - K1.length)
          (by show _ < eSuf.length; have : eSuf.length = 11 := by decide
              omega)
        have hL : (mPre ++ K1 ++ eSuf)[7 + K1.length + (d - 7 - K1.length)]? =
            some c := by
          rw [patB_suf K1 (d - 7 - K1.length)]
          exact hc0
        have h1 := tr (i := 0)
          (by rw [show d + 0 = 7 + K1.length + (d - 7 - K1.length) from by
            omega]; exact hL) (by omega)
        rw [repB_pre K2 V2 (by omega)] at h1
        have hcm : c = 'm' := by
          have he : mPre[(0 : Nat)]? = some 'm' := by decide
          rw [he] at h1
          exact (Option.some.inj h1).symm
        subst hcm
        have hval : ∀ t, t < 11 → t ≠ 2 → ¬ (eSuf[t]? = some 'm') := by decide
        exact hval (d - 7 - K1.length) (by omega) (by omega) hc0

/-! ## Surgery on infix occurrences across appends -/

theorem infix_iff_drop {P m : List Char} :
    P <:+: m ↔ ∃ k, P <+: m.drop k := by
  constructor
  · rintro ⟨s, t, rfl⟩
    refine ⟨s.length, ?_⟩
    rw [List.append_assoc, List.drop_left' rfl]
    exact List.prefix_append _ _
  · rintro ⟨k, t, ht⟩
    refine ⟨m.take k, t, ?_⟩
    rw [List.append_assoc, ht, List.take_append_drop]

theorem prefix_append_of_le {xs u v : List Char} (h : xs <+: u ++ v)
    (hlen : xs.length ≤ u.length) : xs <+: u := by
  obtain ⟨t, ht⟩ := h
  have h2 : xs = (u ++ v).take xs.length := by
    rw [← ht, List.take_left' rfl]
  rw [h2, List.take_append_of_le_length hlen]
  exact List.take_prefix _ _

theorem prefix_drop_piece {xs u v : List Char} (h : xs <+: u ++ v)
    (hlen : u.length ≤ xs.length) : xs.drop u.length <+: v := by
  obtain ⟨t, ht⟩ := h
  have h2 := congrArg (List.drop u.length) ht
  rw [List.drop_append_of_le_length hlen, List.drop_left] at h2
  exact ⟨t, h2⟩

theorem infix_append_cases {P u v : List Char} (h : P <:+: u ++ v) :
    P <:+: u ∨ P <:+: v ∨
      ∃ k, k < u.length ∧ u.length < k + P.length ∧ P <+: u.drop k ++ v := by
  rw [infix_iff_drop] at h
  obtain ⟨k, hk⟩ := h
  rcases Nat.lt_or_ge k u.length with hku | hku
  · rcases le_or_lt (k + P.length) u.length with hkP | hkP
    · left
      rw [infix_iff_drop]
      refine ⟨k, ?_⟩
      have hsplit : (u ++ v).drop k = u.drop k ++ v :=
        List.drop_append_of_le_length (by omega)
      rw [hsplit] at hk
      exact prefix_append_of_le hk (by simp [List.length_drop]; omega)
    · right
      right
      refine ⟨k, hku, by omega, ?_⟩
      rw [← List.drop_append_of_le_length (show k ≤ u.length by omega)]
      exact hk
  · right
    left
    rw [infix_iff_drop]
    refine ⟨k - u.length, ?_⟩
    have hsplit : (u ++ v).drop k = v.drop (k - u.length) := by
      conv_lhs => rw [show k = u.length + (k - u.length) from by omega]
      rw [← List.drop_drop, List.drop_left]
    rw [hsplit] at hk
    exact hk

theorem infix_append_left {α : Type} {l t u : List α} (h : l <:+: t) :
    l <:+: u ++ t := by
  obtain ⟨s, r, rfl⟩ := h
  exact ⟨u ++ s, r, by simp [List.append_assoc]⟩

theorem part_infix_interc {α : Type} (sep : List α) :
    ∀ (parts : List (List α)) (p : List α), p ∈ parts →
      p <:+: interc sep parts := by
  intro parts
  induction parts with
  | nil =>
    intro p hp
    exact absurd hp (List.not_mem_nil p)
  | cons p0 ps ih =>
    intro p hp
    rcases List.mem_cons.mp hp with rfl | hmem
    · cases ps with
      | nil => exact List.infix_refl p
      | cons q qs =>
        rw [interc_cons, List.append_assoc]
        exact (List.prefix_append p _).isInfix
    · cases ps with
      | nil => exact absurd hmem (List.not_mem_nil p)
      | cons q qs =>
        rw [interc_cons, List.append_assoc]
        exact infix_append_left (infix_append_left (ih p hmem))

/-! ## The pattern does not survive nor reappear in replacement outputs -/

theorem no_pat_interc (K1 K2 V2 : List Char)
    (hK1q : qc ∉ K1) (hK1n : nlc ∉ K1)
    (hK2q : qc ∉ K2) (hK2n : nlc ∉ K2) (hK2ne : K2 ≠ [])
    (hVq : qc ∉ V2) (hVne : V2 ≠ [])
    (hVs : ¬ msgidSp <:+ V2) :
    ∀ parts : List (List Char), (∀ p ∈ parts, ¬ poPat K1 <:+: p) →
      ¬ poPat K1 <:+: interc (poRep K2 V2) parts := by
  have hlenP : (poPat K1).length = 18 + K1.length := by
    rw [poPat_shape, len_patB]
  have hlenR : (poRep K2 V2).length = 18 + K2.length + V2.length := by
    rw [poRep_shape, len_repB]
  intro parts
  induction parts with
  | nil =>
    intro _ h
    rw [show interc (poRep K2 V2) [] = [] from rfl, List.infix_nil] at h
    exact poPat_ne_nil K1 h
  | cons p ps ih =>
    intro hparts hinf
    cases ps with
    | nil => exact hparts p (List.mem_cons_self _ _) hinf
    | cons q qs =>
      rw [interc_cons, List.append_assoc] at hinf
      rcases infix_append_cases hinf with h1 | h1 | h1
      · exact hparts p (List.mem_cons_self _ _) h1
      · rcases infix_append_cases h1 with h2 | h2 | h2
        · rw [infix_iff_drop] at h2
          obtain ⟨k, hk⟩ := h2
          rcases Nat.lt_or_ge k (poRep K2 V2).length with hklt | hkge
          · refine coreA K1 K2 V2 [] hK1q hK1n hK2q hK2n hK2ne hVq hVne hVs k
              (by omega) ?_
            rw [List.append_nil, ← poRep_shape, ← poPat_shape]
            exact hk
          · rw [List.drop_eq_nil_of_le hkge] at hk
            exact poPat_ne_nil K1 (List.prefix_nil.mp hk)
        · exact ih (fun r hr => hparts r (List.mem_cons_of_mem _ hr)) h2
        · obtain ⟨k, hk1, hk2, hk3⟩ := h2
          refine coreA K1 K2 V2 (interc (poRep K2 V2) (q :: qs)) hK1q hK1n
            hK2q hK2n hK2ne hVq hVne hVs k (by omega) ?_
          rw [← poRep_shape, ← poPat_shape]
          exact hk3
      · obtain ⟨k, hk1, hk2, hk3⟩ := h1
        have hwlen : (p.drop k).length < (poPat K1).length := by
          simp only [List.length_drop]
          omega
        have hwpos : 1 ≤ (p.drop k).length := by
          simp only [List.length_drop]
          omega
        have hdrop := prefix_drop_piece hk3 (le_of_lt hwlen)
        refine coreB K1 K2 V2 (interc (poRep K2 V2) (q :: qs)) hK1q hK1n
          hK2n hK2ne (p.drop k).length hwpos (by omega) ?_
        rw [← poRep_shape, ← poPat_shape]
        exact hdrop

theorem substEntry_no_self (K V : List Char) (hq : qc ∉ K) (hn : nlc ∉ K)
    (hKne : K ≠ []) (hVq : qc ∉ V) (hVne : V ≠ [])
    (hVs : ¬ msgidSp <:+ V) (s : List Char) :
    ¬ poPat K <:+: replaceAll s (poPat K) (poRep K V) := by
  obtain ⟨parts, hne, h1, h2, h3⟩ :=
    replaceAll_decomp (poPat K) (poRep K V) (poPat_ne_nil K) s
  rw [h2]
  exact no_pat_interc K K V hq hn hq hn hKne hVq hVne hVs parts h3

theorem substEntry_preserves (K1 : List Char) (hq1 : qc ∉ K1)
    (hn1 : nlc ∉ K1) (e : List Char × List Char) (hgood : goodEntry e)
    (s : List Char) (h : ¬ poPat K1 <:+: s) :
    ¬ poPat K1 <:+: substEntry s e := by
  obtain ⟨hene, heq, hen, hvne, hvq, hvs⟩ := hgood
  obtain ⟨parts, hne, h1, h2, h3⟩ :=
    replaceAll_decomp (poPat e.1) (poRep e.1 e.2) (poPat_ne_nil e.1) s
  show ¬ poPat K1 <:+: replaceAll s (poPat e.1) (poRep e.1 e.2)
  rw [h2]
  apply no_pat_interc K1 e.1 e.2 hq1 hn1 heq hen hene hvq hvne hvs parts
  intro p hp hinf
  exact h (hinf.trans (h1 ▸ part_infix_interc (poPat e.1) parts p hp))

theorem TRANSLATIONS_good : ∀ e ∈ TRANSLATIONS, goodEntry e := by decide

theorem translationsPop_good : ∀ e ∈ translationsPop, goodEntry e := by decide

theorem foldl_no_pat (K1 : List Char) (hq1 : qc ∉ K1) (hn1 : nlc ∉ K1) :
    ∀ (entries : List (List Char × List Char)) (s : List Char),
      (∀ e ∈ entries, goodEntry e) → ¬ poPat K1 <:+: s →
      ¬ poPat K1 <:+: List.foldl substEntry s entries := by
  intro entries
  induction entries with
  | nil =>
    intro s _ h
    exact h
  | cons e es ih =>
    intro s hgood h
    exact ih (substEntry s e) (fun x hx => hgood x (List.mem_cons_of_mem _ hx))
      (substEntry_preserves K1 hq1 hn1 e (hgood e (List.mem_cons_self _ _)) s h)

theorem foldl_kills :
    ∀ (entries : List (List Char × List Char)) (s K V : List Char),
      (K, V) ∈ entries → (∀ e ∈ entries, goodEntry e) →
      ¬ poPat K <:+: List.foldl substEntry s entries := by
  intro entries
  induction entries with
  | nil =>
    intro s K V h
    exact absurd h (List.not_mem_nil _)
  | cons e es ih =>
    intro s K V hmem hgood
    rcases List.mem_cons.mp hmem with heq | hmem2
    · obtain ⟨hene, heq2, hen, hvne, hvq, hvs⟩ := hgood e (List.mem_cons_self _ _)
      have hKe : e.1 = K := by rw [← heq]
      have hVe : e.2 = V := by rw [← heq]
      show ¬ poPat K <:+: List.foldl substEntry (substEntry s e) es
      apply foldl_no_pat K (hKe ▸ heq2) (hKe ▸ hen) es (substEntry s e)
        (fun x hx => hgood x (List.mem_cons_of_mem _ hx))
      show ¬ poPat K <:+: replaceAll s (poPat e.1) (poRep e.1 e.2)
      rw [hKe, hVe]
      exact substEntry_no_self K V (hKe ▸ heq2) (hKe ▸ hen) (hKe ▸ hene)
        (hVe ▸ hvq) (hVe ▸ hvne) (hVe ▸ hvs) s
    · exact ih (substEntry s e) K V hmem2
        (fun x hx => hgood x (List.mem_cons_of_mem _ hx))

/-! ## Claim C1: the glossary substitution is a pure frame rewrite -/

/-- C1: for each glossary entry, in both translate_po.py and
populate_translations.py, the substitution step changes only occurrences of
the exact two-line pattern msgid "K"␊msgstr "" and leaves every other
character of the content unchanged; the written output is the result of
chaining these frame steps over the whole dictionary. -/
theorem glossary_subst_frame (g : List (List Char × List Char))
    (hg : g = TRANSLATIONS ∨ g = translationsPop) (content : List Char) :
    Frames g content (applyGlossary g content) := by
  suffices H : ∀ (entries : List (List Char × List Char)) (s : List Char),
      Frames entries s (List.foldl substEntry s entries) by
    exact H g content
  intro entries
  induction entries with
  | nil =>
    intro s
    rfl
  | cons e es ih =>
    intro s
    refine ⟨substEntry s e, ?_, ih (substEntry s e)⟩
    obtain ⟨parts, hne, h1, h2, h3⟩ :=
      replaceAll_decomp (poPat e.1) (poRep e.1 e.2) (poPat_ne_nil e.1) s
    exact ⟨parts, h1, h2, h3⟩

theorem glossary_subst_frame_witness :
    Frames TRANSLATIONS sampleContent
      (applyGlossary TRANSLATIONS sampleContent) :=
  glossary_subst_frame TRANSLATIONS (Or.inl rfl) sampleContent

/-! ## Claim C3: the substitution hits every occurrence -/

/-- C3: for every entry (K, V) of either glossary, the substitution rewrites
each occurrence of msgid "K"␊msgstr "" into msgid "K"␊msgstr "V" (the parts
between occurrences contain no further occurrence), and after the loop has
run over the whole glossary no entry whose msgid equals a glossary key
still has an empty msgstr. -/
theorem glossary_substitutes_all (g : List (List Char × List Char))
    (hg : g = TRANSLATIONS ∨ g = translationsPop)
    (K V content : List Char) (hKV : (K, V) ∈ g) :
    (∃ parts : List (List Char), content = interc (poPat K) parts ∧
      substEntry content (K, V) = interc (poRep K V) parts ∧
      ∀ p ∈ parts, ¬ poPat K <:+: p) ∧
    ¬ poPat K <:+: applyGlossary g content := by
  have hgood : ∀ e ∈ g, goodEntry e := by
    rcases hg with rfl | rfl
    · exact TRANSLATIONS_good
    · exact translationsPop_good
  constructor
  · obtain ⟨parts, hne, h1, h2, h3⟩ :=
      replaceAll_decomp (poPat K) (poRep K V) (poPat_ne_nil K) content
    exact ⟨parts, h1, h2, h3⟩
  · exact foldl_kills g content K V hKV hgood

theorem glossary_substitutes_all_witness :
    (∃ parts : List (List Char),
      sampleContent = interc (poPat ("Summary").toList) parts ∧
      substEntry sampleContent (("Summary").toList, ("目录").toList) =
        interc (poRep ("Summary").toList ("目录").toList) parts ∧
      ∀ p ∈ parts, ¬ poPat ("Summary").toList <:+: p) ∧
    ¬ poPat ("Summary").toList <:+:
      applyGlossary TRANSLATIONS sampleContent :=
  glossary_substitutes_all TRANSLATIONS (Or.inl rfl) ("Summary").toList
    ("目录").toList sampleContent (by decide)

/-! ## Claim C2: extraction returns exactly the matching pairs -/

/-- C2: extract_untranslated_messages returns exactly the pairs (m, p) such
that at position p the content contains msgid "g"␊msgstr "" for a non-empty
double-quote-free group g, where m is g with the escape sequences replaced
and groups starting with Project-Id-Version are excluded; the returned
positions are strictly increasing (so the list has no duplicates). -/
theorem extract_untranslated_messages_spec (content : List Char) :
    (∀ m p, ((m, p) ∈ extract_untranslated_messages content ↔
      ∃ g, g ≠ [] ∧ qc ∉ g ∧ poPat g <+: content.drop p ∧
        ¬ pivL.isPrefixOf g ∧ m = unescapePo g)) ∧
    (extract_untranslated_messages content).Pairwise
      (fun a b => a.2 < b.2) := by
  obtain ⟨hmem, hpw, -⟩ := scanPo_spec content.length content 0 rfl
  refine ⟨?_, hpw⟩
  intro m p
  rw [show extract_untranslated_messages content = scanPo content 0 from rfl,
    hmem m p]
  constructor
  · rintro ⟨j, g, hp, hmj, hpiv, hm2⟩
    obtain ⟨hne, hq, r, hr⟩ := poMatch_some_iff.mp hmj
    refine ⟨g, hne, hq, ?_, hpiv, hm2⟩
    rw [show p = j from by omega, hr, poPat_shape]
    rw [show mPre ++ g ++ eSuf ++ r = (mPre ++ g ++ eSuf) ++ r from by
      simp [List.append_assoc]]
    exact List.prefix_append _ _
  · rintro ⟨g, hne, hq, hpref, hpiv, hm2⟩
    refine ⟨p, g, by omega, ?_, hpiv, hm2⟩
    apply poMatch_some_iff.mpr
    obtain ⟨t, ht⟩ := hpref
    refine ⟨hne, hq, t, ?_⟩
    rw [← ht, poPat_shape]

/-! ## Claim C8: re-escaping reconstructs the matched text -/

/-- C8: for every pair (m, p) returned by extract_untranslated_messages
whose msgid m contains no literal newline and no literal tab, the
re-escaping done by translate_po_file reconstructs exactly the originally
matched group g (escape is a left inverse of unescape on this domain), so
the two-line pattern msgid "escapePo m"␊msgstr "" occurs in the content at
position p. -/
theorem escape_reconstructs (content m : List Char) (p : Nat)
    (hmem : (m, p) ∈ extract_untranslated_messages content)
    (hnl : nlc ∉ m) (htb : tbc ∉ m) :
    ∃ g, m = unescapePo g ∧ escapePo m = g ∧
      poPat (escapePo m) <+: content.drop p := by
  obtain ⟨hmemiff, -, -⟩ := scanPo_spec content.length content 0 rfl
  obtain ⟨j, g, hp, hmj, hpiv, hm2⟩ := (hmemiff m p).mp hmem
  obtain ⟨hne, hq, r, hr⟩ := poMatch_some_iff.mp hmj
  have hid := unescape_escape_id hq (hm2 ▸ hnl) (hm2 ▸ htb)
  have hmg : m = g := by rw [hm2, hid.1]
  refine ⟨g, hm2, ?_, ?_⟩
  · rw [hmg, hid.2]
  · rw [hmg, hid.2, poPat_shape, show p = j from by omega, hr]
    rw [show mPre ++ g ++ eSuf ++ r = (mPre ++ g ++ eSuf) ++ r from by
      simp [List.append_assoc]]
    exact List.prefix_append _ _

theorem escape_reconstructs_witness :
    ∃ g, (['a'] : List Char) = unescapePo g ∧ escapePo ['a'] = g ∧
      poPat (escapePo ['a']) <+: sampleContent.drop 0 :=
  escape_reconstructs sampleContent ['a'] 0 (by decide) (by decide) (by decide)

theorem replaceAll_ne_nil {s pat repl : List Char} (hs : s ≠ [])
    (hr : repl ≠ []) : replaceAll s pat repl ≠ [] := by
  by_cases hne : pat = []
  · subst hne
    have : replaceAll s [] repl = s := by
      cases s <;> rfl
    rw [this]
    exact hs
  · match s, hs with
    | c :: rest, _ =>
      by_cases hp : pat.isPrefixOf (c :: rest)
      · rw [replaceAll_cons_pos hne hp]
        simp [hr]
      · rw [replaceAll_cons_neg hp]
        simp

theorem escapeTrans_ne_nil {tr : List Char} (h : tr ≠ []) :
    escapeTrans tr ≠ [] := by
  unfold escapeTrans
  apply replaceAll_ne_nil
  · apply replaceAll_ne_nil
    · exact replaceAll_ne_nil h (by decide)
    · decide
  · decide

/-! ## Claim C7: empty msgstr is the untranslated marker -/

/-- C7: the pattern that makes an entry eligible for modification in all
three scripts is msgid "K"␊msgstr "" (an empty msgstr), and, under the
precondition that the entry occurs at a unique position in the content, a
successful glossary hit (replaceAll, the two glossary scripts) or a
successful translation (processMsg, auto_translate.py) rewrites exactly
that entry to msgid "K"␊msgstr "V" — a non-empty msgstr with the original
msgid line unchanged and everything else untouched. -/
theorem empty_msgstr_marker (K V pre suf : List Char) (hV : V ≠ [])
    (hmin : ∀ x y : List Char, pre ++ poPat K ++ suf = x ++ poPat K ++ y →
      pre.length ≤ x.length)
    (hsuf : ¬ poPat K <:+: suf) :
    poPat K = msgidLine K ++ [nlc] ++ msgstrOf [] ∧
    poRep K V = msgidLine K ++ [nlc] ++ msgstrOf V ∧
    msgstrOf V ≠ msgstrOf [] ∧
    replaceAll (pre ++ poPat K ++ suf) (poPat K) (poRep K V) =
      pre ++ poRep K V ++ suf ∧
    (∀ (orig tr : List Char) (n p : Nat),
      escapePo orig = K → escapeTrans tr = V → tr ≠ [] →
      processMsg (pre ++ poPat K ++ suf, n) ((orig, p), tr) =
        (pre ++ poRep K V ++ suf, n + 1)) ∧
    (∀ tr : List Char, tr ≠ [] → escapeTrans tr ≠ []) := by
  refine ⟨rfl, rfl, ?_, ?_, ?_, fun tr htr => escapeTrans_ne_nil htr⟩
  · intro h
    have := congrArg List.length h
    simp [msgstrOf] at this
    exact hV this
  · exact replaceAll_at (poPat K) (poRep K V) pre suf (poPat_ne_nil K) hsuf hmin
  · intro orig tr n p heo het htr
    unfold processMsg
    simp only [htr, if_false, heo, het]
    have hinf : poPat K <:+: pre ++ poPat K ++ suf := ⟨pre, suf, by simp⟩
    rw [if_pos hinf]
    rw [replaceFirst_at (poPat K) (poRep K V) pre suf (poPat_ne_nil K) hmin]

theorem empty_msgstr_marker_witness :
    replaceAll (([] : List Char) ++ poPat ['a'] ++ []) (poPat ['a'])
        (poRep ['a'] ['b']) = [] ++ poRep ['a'] ['b'] ++ [] ∧
    processMsg (([] : List Char) ++ poPat ['a'] ++ [], 0) ((['a'], 0), ['b']) =
      ([] ++ poRep ['a'] ['b'] ++ [], 0 + 1) :=
  ⟨(empty_msgstr_marker ['a'] ['b'] [] [] (by decide)
      (fun x y _ => Nat.zero_le _) (by decide)).2.2.2.1,
   (empty_msgstr_marker ['a'] ['b'] [] [] (by decide)
      (fun x y _ => Nat.zero_le _) (by decide)).2.2.2.2.1 ['a'] ['b'] 0 0
      (by decide) (by decide) (by decide)⟩

/-! ## Claim C9: empty translations change nothing -/

/-- C9: in the replacement loop of translate_po_file, a message whose
returned translation is the empty string leaves the content and the
translated_count unchanged, and a fully failed batch (all translations
empty, as returned by translate_text on failure) leaves the whole state
unchanged. -/
theorem empty_translation_leaves_content :
    (∀ (st : List Char × Nat) (orig : List Char × Nat),
      processMsg st (orig, []) = st) ∧
    (∀ (content : List Char) (n : Nat) (batch : List (List Char × Nat)),
      (batch.zip (List.replicate batch.length [])).foldl processMsg
        (content, n) = (content, n)) := by
  have h1 : ∀ (st : List Char × Nat) (orig : List Char × Nat),
      processMsg st (orig, []) = st := by
    intro st orig
    unfold processMsg
    simp
  refine ⟨h1, ?_⟩
  intro content n batch
  induction batch generalizing content n with
  | nil => simp
  | cons b bs ih =>
    simp only [List.length_cons, List.replicate_succ, List.zip_cons_cons,
      List.foldl_cons]
    rw [h1]
    exact ih content n

end Wayvid
